import Mathlib

/-!
# Verification of the stock-data pipeline core

Shallow embedding of the core of `services/stock-data-service/app`:

* the data model (`app/models/stock_data.py`),
* the incremental merge (`app/services/download.py`,
  `StockDataDownloader._merge_price_data`, `_is_significantly_different`,
  `_check_for_gaps`, `download_incremental_for_symbol`),
* the weekly aggregator (`app/services/weekly_aggregator.py`),
* the indicator calculator shape contract (`app/indicators/calculator.py`,
  `app/indicators/config.py`).

Embedding conventions:

* Dates are modelled as natural numbers counting days, with day `0` chosen to
  be a Monday, so `d % 7` coincides with Python's `date.weekday()`
  (Monday = 0, …, Sunday = 6) and `d₂ - d₁` is `(date2 - date1).days`.
* Python floats are modelled by exact rationals `ℚ`; the claims settled here
  are threshold / shape / ordering claims, not floating-point rounding claims.
* Python `dict` objects keyed by date are modelled as association lists with
  in-place update (`alistInsert`), which preserves Python's key-uniqueness.
* Python exceptions (pydantic validation errors, `IndexError`) surface as
  `Option`: `none` is a raised exception.
* The numeric output of the external `ta` library is an oracle parameter
  `ta : String → String → List (Option ℚ)` (indicator name, output name ↦
  series, with `none` for NaN); the shape claims hold for every oracle.
-/

namespace JnetSite

/-! ## Data model (`app/models/stock_data.py`) -/

/-- Model of `StockDataPoint` from `app/models/stock_data.py`.  The Python field
`open` is a Lean keyword and is rendered `open_`. -/
structure StockDataPoint where
  date : Nat
  open_ : ℚ
  high : ℚ
  low : ℚ
  close : ℚ
  adj_close : ℚ
  volume : Nat
deriving DecidableEq

/-- The pydantic validators of `StockDataPoint`: all prices strictly positive
(`Field(gt=0)`), `high ≥ open`, `high ≥ close`, `low ≤ open`, `low ≤ close`.
`volume ≥ 0` is automatic since volume is a `Nat`. -/
def StockDataPoint.Valid (p : StockDataPoint) : Prop :=
  0 < p.open_ ∧ 0 < p.high ∧ 0 < p.low ∧ 0 < p.close ∧ 0 < p.adj_close ∧
    p.open_ ≤ p.high ∧ p.close ≤ p.high ∧ p.low ≤ p.open_ ∧ p.low ≤ p.close

instance (p : StockDataPoint) : Decidable p.Valid := by
  unfold StockDataPoint.Valid; infer_instance

/-- Model of `WeeklyDataPoint` from `app/models/stock_data.py` (fields only;
validation is `mkWeeklyDataPoint`). -/
structure WeeklyDataPoint where
  week_ending : Nat
  week_start : Nat
  open_ : ℚ
  high : ℚ
  low : ℚ
  close : ℚ
  adj_close : ℚ
  volume : Nat
  trading_days : Nat
deriving DecidableEq

/-- Pydantic construction of a `WeeklyDataPoint`: `Field(gt=0)` on the five
price fields, `1 ≤ trading_days ≤ 5`, `week_ending` a Friday and
`week_start` a Monday.  A failed validator raises, modelled as `none`. -/
def mkWeeklyDataPoint (w : WeeklyDataPoint) : Option WeeklyDataPoint :=
  if 0 < w.open_ ∧ 0 < w.high ∧ 0 < w.low ∧ 0 < w.close ∧ 0 < w.adj_close ∧
      1 ≤ w.trading_days ∧ w.trading_days ≤ 5 ∧
      w.week_ending % 7 = 4 ∧ w.week_start % 7 = 0
  then some w else none

/-! ## Association lists modelling Python `dict` -/

/-- Python `d[k] = v`: replace the (unique) binding of `k` in place, or
append a fresh binding at the end. -/
def alistInsert {κ α : Type} [DecidableEq κ] (k : κ) (v : α) :
    List (κ × α) → List (κ × α)
  | [] => [(k, v)]
  | e :: rest => if e.1 = k then (k, v) :: rest else e :: alistInsert k v rest

/-- Python `d.get(k)` / `k in d`. -/
def alistLookup {κ α : Type} [DecidableEq κ] (k : κ) :
    List (κ × α) → Option α
  | [] => none
  | e :: rest => if e.1 = k then some e.2 else alistLookup k rest

/-! ## Incremental merge (`StockDataDownloader` in `app/services/download.py`) -/

/-- Model of `_is_significantly_different`: close prices differ relatively by more
than 1% (relative to the existing point), or volumes differ relatively by
more than 10% (relative to `max(existing volume, 1)`). -/
def is_significantly_different (point1 point2 : StockDataPoint) : Bool :=
  let close_diff := |point1.close - point2.close| / point1.close
  let volume_diff :=
    ((((point1.volume : Int) - (point2.volume : Int)).natAbs : ℚ)) /
      ((max point1.volume 1 : Nat) : ℚ)
  decide (close_diff > 1 / 100) || decide (volume_diff > 1 / 10)

/-- Warnings accumulated by `_merge_price_data`: the
"Updated data for {date}" overwrite warning and the
"Potential gap detected" gap warning. -/
inductive MergeWarning where
  | updated (d : Nat)
  | gap (prevDate currDate : Nat)
deriving DecidableEq

/-- The statistics dictionary returned by `_merge_price_data`. -/
structure MergeStats where
  new_points : Nat
  duplicates : Nat
  warnings : List MergeWarning
  total_points : Nat
deriving DecidableEq

/-- Loop state of the merge loop in `_merge_price_data`. -/
structure MergeAcc where
  dict : List (Nat × StockDataPoint)
  newPoints : Nat
  duplicates : Nat
  warnings : List MergeWarning

/-- One iteration of the `for new_point in new_points` loop of
`_merge_price_data`. -/
def mergeStep (acc : MergeAcc) (new_point : StockDataPoint) : MergeAcc :=
  match alistLookup new_point.date acc.dict with
  | some existing_point =>
    if is_significantly_different existing_point new_point then
      { acc with
          dict := alistInsert new_point.date new_point acc.dict
          warnings := acc.warnings ++ [MergeWarning.updated new_point.date] }
    else
      { acc with duplicates := acc.duplicates + 1 }
  | none =>
    { acc with
        dict := alistInsert new_point.date new_point acc.dict
        newPoints := acc.newPoints + 1 }

/-- Model of `existing_by_date`, the dict comprehension indexing the
existing points by date (last occurrence wins on a duplicate date). -/
def buildDict (points : List StockDataPoint) : List (Nat × StockDataPoint) :=
  points.foldl (fun m p => alistInsert p.date p m) []

/-- The comparison of `sorted(..., key=lambda x: x.date)`.  Python's
`sorted` is a stable comparison sort; it is modelled by the (stable,
structural) insertion sort under this relation. -/
def dateKeyLe (a b : StockDataPoint) : Prop := a.date ≤ b.date

instance : DecidableRel dateKeyLe := fun a b =>
  inferInstanceAs (Decidable (a.date ≤ b.date))

instance : IsTotal StockDataPoint dateKeyLe :=
  ⟨fun a b => Nat.le_total a.date b.date⟩

instance : IsTrans StockDataPoint dateKeyLe :=
  ⟨fun _ _ _ => Nat.le_trans⟩

/-- The consecutive-date gaps scanned by `_check_for_gaps`: pairs of
consecutive points more than 5 days apart. -/
def consecutiveGaps : List StockDataPoint → List (Nat × Nat)
  | [] => []
  | [_] => []
  | a :: b :: rest =>
    (if b.date - a.date > 5 then [(a.date, b.date)] else []) ++
      consecutiveGaps (b :: rest)

/-- Model of `_check_for_gaps`: collect the gap descriptions, stopping once 5 have
been collected (`if len(gaps) >= 5: break`). -/
def check_for_gaps (data_points : List StockDataPoint) : List (Nat × Nat) :=
  (consecutiveGaps data_points).take 5

/-- Model of `_merge_price_data`: index the existing points by date, fold the new
points through the duplicate/overwrite/insert decision, sort the resulting
dict values by date, and append up to 3 gap warnings. -/
def merge_price_data (existing_points new_points : List StockDataPoint) :
    List StockDataPoint × MergeStats :=
  let acc := new_points.foldl mergeStep ⟨buildDict existing_points, 0, 0, []⟩
  let merged_points := (acc.dict.map (·.2)).insertionSort dateKeyLe
  let gaps := check_for_gaps merged_points
  let warnings :=
    acc.warnings ++ (gaps.take 3).map fun g => MergeWarning.gap g.1 g.2
  (merged_points,
    ⟨acc.newPoints, acc.duplicates, warnings, merged_points.length⟩)

/-! ## Weekly aggregation (`app/services/weekly_aggregator.py`) -/

/-- Model of `WeeklyAggregator.get_week_boundaries`: Monday and Friday of the week
containing `input_date` (`monday = date - weekday(date)`,
`friday = monday + 4`). -/
def get_week_boundaries (input_date : Nat) : Nat × Nat :=
  let days_since_monday := input_date % 7
  let monday := input_date - days_since_monday
  (monday, monday + 4)

/-- The grouping key `(week_start, week_end)` of a daily point. -/
def weekKey (p : StockDataPoint) : Nat × Nat := get_week_boundaries p.date

/-- Tuple comparison used by `sorted(weeks_data.items())` on the
`(week_start, week_end)` keys. -/
def weekKeyLe (a b : Nat × Nat) : Prop :=
  a.1 < b.1 ∨ (a.1 = b.1 ∧ a.2 ≤ b.2)

instance : DecidableRel weekKeyLe := fun a b =>
  inferInstanceAs (Decidable (_ ∨ _))

instance : IsTotal (Nat × Nat) weekKeyLe := ⟨fun a b => by
  unfold weekKeyLe
  omega⟩

instance : IsTrans (Nat × Nat) weekKeyLe := ⟨fun a b c h1 h2 => by
  unfold weekKeyLe at *
  omega⟩

/-- Model of `WeeklyAggregator.aggregate_week`: sort the week's points by date, take
open/adj_close/close from the first/last point, max/min/sum the
high/low/volume columns, and construct the (validated) `WeeklyDataPoint`.
An empty week would raise `IndexError` in Python (`sorted_week[0]`),
modelled as `none`; the caller never passes an empty week. -/
def aggregate_week (week_data : List StockDataPoint)
    (week_start week_end : Nat) : Option WeeklyDataPoint :=
  match week_data.insertionSort dateKeyLe with
  | [] => none
  | first :: rest =>
    let sorted_week := first :: rest
    let last := rest.getLastD first
    mkWeeklyDataPoint
      { week_ending := week_end
        week_start := week_start
        open_ := first.open_
        high := (sorted_week.map (·.high)).foldl max first.high
        low := (sorted_week.map (·.low)).foldl min first.low
        close := last.close
        adj_close := last.adj_close
        volume := (sorted_week.map (·.volume)).sum
        trading_days := sorted_week.length }

/-- The `for (week_start, week_end), week_points in sorted(weeks_data.items())`
loop of `aggregate_to_weekly`: for each key in ascending order, aggregate the
group of points with that week key (the group order inside `weeks_data` is
the order of the date-sorted input, i.e. a filter of `sorted_data`), skipping
empty groups (`if week_points:`). -/
def aggregateWeeks (sorted_data : List StockDataPoint) :
    List (Nat × Nat) → Option (List WeeklyDataPoint)
  | [] => some []
  | k :: ks =>
    let week_points := sorted_data.filter fun p => decide (weekKey p = k)
    if week_points.isEmpty then aggregateWeeks sorted_data ks
    else
      match aggregate_week week_points k.1 k.2, aggregateWeeks sorted_data ks with
      | some w, some rest => some (w :: rest)
      | _, _ => none

/-- Model of `WeeklyAggregator.aggregate_to_weekly`: empty input yields `[]`;
otherwise sort by date, group by week boundaries, and aggregate each
non-empty group in ascending key order.  The distinct week keys of the
sorted data, in ascending order, are `(map weekKey).dedup` sorted by
`weekKeyLe`. -/
def aggregate_to_weekly (daily_data : List StockDataPoint) :
    Option (List WeeklyDataPoint) :=
  if daily_data.isEmpty then some []
  else
    let sorted_data := daily_data.insertionSort dateKeyLe
    let week_keys := ((sorted_data.map weekKey).dedup).insertionSort weekKeyLe
    aggregateWeeks sorted_data week_keys

/-! ## Indicator calculator (`app/indicators/calculator.py`, `config.py`) -/

/-- One entry of an indicator time series (`IndicatorValue` in
`app/indicators/models.py`): a date and a map output-name ↦ nullable
numeric value. -/
structure IndicatorValue where
  date : Nat
  values : List (String × Option ℚ)
deriving DecidableEq

/-- Model of `IndicatorData` from `app/indicators/models.py`, restricted to the
fields the claims are about (the display metadata `display_name`,
`category` and the `parameters` map are carried verbatim from static
tables and are claim-irrelevant; they are omitted). -/
structure IndicatorData where
  name : String
  values : List IndicatorValue
deriving DecidableEq

/-- Model of `INDICATOR_MIN_PERIODS` from `app/indicators/config.py`. -/
def INDICATOR_MIN_PERIODS : List (String × Nat) :=
  [("SMA_20", 20), ("SMA_50", 50), ("SMA_200", 200), ("EMA_12", 25),
   ("EMA_26", 50), ("RSI_14", 15), ("MACD", 35), ("BB_20", 20),
   ("ADX_14", 28), ("ATR_14", 15), ("STOCH", 14), ("OBV", 2),
   ("CMF_20", 21), ("VOLUME_SMA_20", 20)]

/-- Model of `self.min_periods.get(indicator_name, 0)`. -/
def minPeriod (indicator_name : String) : Nat :=
  (alistLookup indicator_name INDICATOR_MIN_PERIODS).getD 0

/-- Model of `IndicatorCalculator._prepare_dataframe`: the rows of the DataFrame,
sorted ascending by date (`df.sort_index()`).  For a weekly series the
`date` field is the bar's `week_ending`; both granularities are a
date-keyed OHLCV row list. -/
def prepare_dataframe (data_points : List StockDataPoint) :
    List StockDataPoint :=
  data_points.insertionSort dateKeyLe

/-- Model of `IndicatorCalculator._create_indicator_data`: one `IndicatorValue` per
DataFrame row, in row order; for each output series, position `idx` holds
the series value at `idx` if it exists (with NaN already `none`), else
`None`. -/
def create_indicator_data (name : String) (df : List StockDataPoint)
    (values_dict : List (String × List (Option ℚ))) : IndicatorData :=
  { name := name
    values := df.enum.map fun ip =>
      { date := ip.2.date
        values := values_dict.map fun nv =>
          (nv.1, if h : ip.1 < nv.2.length then nv.2.get ⟨ip.1, h⟩ else none) } }

/-- The output-name lists of the string-dispatch in
`IndicatorCalculator._calculate_indicator`; `none` for an unknown
indicator (which is skipped with a warning). -/
def indicatorOutputNames (indicator_name : String) : Option (List String) :=
  if indicator_name.startsWith "SMA_" then some ["SMA"]
  else if indicator_name.startsWith "EMA_" then some ["EMA"]
  else if indicator_name = "RSI_14" then some ["RSI"]
  else if indicator_name = "MACD" then some ["MACD", "signal", "histogram"]
  else if indicator_name = "BB_20" then some ["upper", "middle", "lower"]
  else if indicator_name = "ADX_14" then some ["ADX", "DI+", "DI-"]
  else if indicator_name = "ATR_14" then some ["ATR"]
  else if indicator_name = "STOCH" then some ["%K", "%D"]
  else if indicator_name = "OBV" then some ["OBV"]
  else if indicator_name = "CMF_20" then some ["CMF"]
  else if indicator_name = "VOLUME_SMA_20" then some ["Volume_SMA"]
  else none

/-- Model of `IndicatorCalculator._calculate_indicator`: dispatch on the indicator
name, run the `ta`-library computation (the oracle), and wrap the output
series with `_create_indicator_data`. -/
def calculate_indicator (ta : String → String → List (Option ℚ))
    (df : List StockDataPoint) (indicator_name : String) :
    Option IndicatorData :=
  (indicatorOutputNames indicator_name).map fun outs =>
    create_indicator_data indicator_name df
      (outs.map fun o => (o, ta indicator_name o))

/-- One iteration of the `for indicator_name in indicators` loop of
`IndicatorCalculator.calculate_for_data`: skip the indicator when the
series is shorter than its minimum period, else compute it and store it
under its name (any per-indicator failure, including unknown names, is
swallowed and the indicator omitted). -/
def calcStep (ta : String → String → List (Option ℚ))
    (df : List StockDataPoint) (results : List (String × IndicatorData))
    (indicator_name : String) : List (String × IndicatorData) :=
  if df.length < minPeriod indicator_name then results
  else
    match calculate_indicator ta df indicator_name with
    | some d => alistInsert indicator_name d results
    | none => results

/-- Model of `IndicatorCalculator.calculate_for_data`: prepare the DataFrame; empty
data yields `{}`; otherwise fold the requested indicators through
`calcStep`. -/
def calculate_for_data (ta : String → String → List (Option ℚ))
    (data_points : List StockDataPoint) (indicators : List String) :
    List (String × IndicatorData) :=
  let df := prepare_dataframe data_points
  if df.isEmpty then []
  else indicators.foldl (calcStep ta df) []

/-! ## Incremental pipeline (`download_incremental_for_symbol`) -/

/-- The externally visible state-changing steps of
`download_incremental_for_symbol`, in program order. -/
inductive Effect where
  | fullDownload
  | recalcIndicators
  | uploadDaily
  | processWeekly
  | updateCatalog
  | invalidateCache
deriving DecidableEq

/-- Model of `StockDataDownloader.download_incremental_for_symbol`, as the returned
status plus the trace of state-changing effects.  Inputs: the stored daily
points (empty ⇒ fall back to a full download), the points converted from
the fetched DataFrame (empty ⇒ report `no_new_data` and stop),
`calcIndicators` = `self.calculate_indicators_enabled`, and `uploadOk` =
the success of the GCS upload.  After a successful upload the code always
updates the catalog and deletes the cache keys; only the weekly
reprocessing and the indicator recalculation are gated on
`stats["new_points"] > 0`. -/
def download_incremental_for_symbol
    (existing_points fetched_points : List StockDataPoint)
    (calcIndicators uploadOk : Bool) : String × List Effect :=
  if existing_points.isEmpty then
    ("fallback_full_download", [Effect.fullDownload])
  else if fetched_points.isEmpty then ("no_new_data", [])
  else
    let ms := merge_price_data existing_points fetched_points
    let pre :=
      (if calcIndicators && decide (0 < ms.2.new_points) then
        [Effect.recalcIndicators]
      else []) ++ [Effect.uploadDaily]
    if !uploadOk then ("storage_error", pre)
    else
      ("success",
        pre ++
          (if decide (0 < ms.2.new_points) then [Effect.processWeekly]
           else []) ++
          [Effect.updateCatalog, Effect.invalidateCache])

/-- The value the merge loop leaves at a date that the incoming bar `b`
hits: the incoming bar for a fresh date, the incoming bar when the stored
bar differs significantly, the stored bar otherwise. -/
def mergeResolve (e? : Option StockDataPoint) (b : StockDataPoint) :
    StockDataPoint :=
  match e? with
  | none => b
  | some e => if is_significantly_different e b then b else e

/-- All dict entries constructed by the merge satisfy `key = value.date`. -/
def DictWF (m : List (Nat × StockDataPoint)) : Prop :=
  ∀ e ∈ m, e.2.date = e.1

/-- Lookup on the `existing` side by date, as the source's "its date is present"
check reads it: the (unique) existing bar carrying date `d`. -/
def findByDate (points : List StockDataPoint) (d : Nat) :
    Option StockDataPoint :=
  points.find? fun p => decide (p.date = d)

/-- Classification of an incoming bar against the existing series:
its date is absent (a new point). -/
def isNewFor (existing : List StockDataPoint) (b : StockDataPoint) : Bool :=
  (findByDate existing b.date).isNone

/-- Classification: date present and not significantly different
(a discarded duplicate). -/
def isDupFor (existing : List StockDataPoint) (b : StockDataPoint) : Bool :=
  match findByDate existing b.date with
  | some e => !is_significantly_different e b
  | none => false

/-- Classification: date present and significantly different
(an overwrite, recorded as a warning). -/
def isOvwFor (existing : List StockDataPoint) (b : StockDataPoint) : Bool :=
  match findByDate existing b.date with
  | some e => is_significantly_different e b
  | none => false

/-- Discriminates the overwrite warnings from the gap warnings. -/
def MergeWarning.isUpdated : MergeWarning → Bool
  | updated _ => true
  | gap _ _ => false

/-! ## Concrete inputs used by counterexamples and witnesses -/

/-- A valid daily bar carrying only whole-number prices, dated day `d`. -/
def sampleBar (d : Nat) : StockDataPoint := ⟨d, 100, 104, 99, 103, 103, 1000⟩

/-- Stored daily series for the incremental-pipeline scenario:
days 0–3 (Mon–Thu). -/
def exC3 : List StockDataPoint :=
  [sampleBar 0, sampleBar 1, sampleBar 2, sampleBar 3]

/-- Fetched window for the incremental-pipeline scenario: the last two
stored days again, bar-for-bar identical (a pure-duplicate fetch). -/
def incC3 : List StockDataPoint := [sampleBar 2, sampleBar 3]

/-- Six valid daily bars with strictly increasing dates on days 0–5
(Monday .. Saturday), all inside one Monday-keyed week. -/
def sixBars : List StockDataPoint := (List.range 6).map sampleBar

/-- Three valid daily bars on days 7–9 (Mon–Wed of week two). -/
def weekBars : List StockDataPoint :=
  [⟨7, 100, 104, 99, 103, 103, 1000⟩, ⟨8, 101, 105, 100, 104, 104, 1100⟩,
   ⟨9, 102, 106, 101, 105, 105, 1200⟩]

/-- The output-shape contract of an `IndicatorData` against its source
DataFrame rows: one entry per row, same date order, every output value
null or a float. -/
def IndicatorShape (df : List StockDataPoint) (d : IndicatorData) : Prop :=
  d.values.length = df.length ∧
    d.values.map (·.date) = df.map (·.date) ∧
    ∀ iv ∈ d.values, ∀ e ∈ iv.values, e.2 = none ∨ ∃ q, e.2 = some q

/-! ## Remaining concrete inputs and witnesses -/

/-- Ten valid daily bars, days 0–9. -/
def tenBars : List StockDataPoint := (List.range 10).map sampleBar

/-- A trivial `ta`-library oracle returning empty series. -/
def ta0 : String → String → List (Option ℚ) := fun _ _ => []

/-- Incoming batch against `exC3` exercising all three merge paths:
day 2 restated with a very different close (overwrite), day 3 identical
(duplicate) and day 5 fresh (new point). -/
def incC2 : List StockDataPoint :=
  [⟨2, 100, 130, 99, 120, 120, 1000⟩, sampleBar 3, sampleBar 5]

/-- The weekly aggregate of `weekBars`, as computed by the embedding. -/
def wsC7 : List WeeklyDataPoint := (aggregate_to_weekly weekBars).getD []

/-- The key list of a dict. -/
def alistKeys {κ α : Type} (m : List (κ × α)) : List κ := m.map (·.1)

/-! ## Association-list lemmas -/

theorem alistLookup_insert_self {κ α : Type} [DecidableEq κ] (k : κ) (v : α) :
    ∀ m : List (κ × α), alistLookup k (alistInsert k v m) = some v := by
  intro m
  induction m with
  | nil => simp [alistInsert, alistLookup]
  | cons e rest ih =>
    by_cases h : e.1 = k
    · simp [alistInsert, alistLookup, h]
    · simp [alistInsert, alistLookup, h, ih]

theorem alistLookup_insert_ne {κ α : Type} [DecidableEq κ] {k k' : κ} (v : α)
    (h : k' ≠ k) :
    ∀ m : List (κ × α), alistLookup k' (alistInsert k v m) = alistLookup k' m := by
  intro m
  induction m with
  | nil => simp [alistInsert, alistLookup, Ne.symm h]
  | cons e rest ih =>
    by_cases he : e.1 = k
    · have h1 : ¬(k = k') := Ne.symm h
      have h2 : ¬(e.1 = k') := by rw [he]; exact h1
      rw [alistInsert, if_pos he, alistLookup, if_neg h1, alistLookup, if_neg h2]
    · by_cases he' : e.1 = k'
      · rw [alistInsert, if_neg he, alistLookup, if_pos he', alistLookup,
          if_pos he']
      · rw [alistInsert, if_neg he, alistLookup, if_neg he', alistLookup,
          if_neg he', ih]

theorem mem_alistKeys_insert {κ α : Type} [DecidableEq κ] (k : κ) (v : α)
    (m : List (κ × α)) (x : κ) :
    x ∈ alistKeys (alistInsert k v m) ↔ x = k ∨ x ∈ alistKeys m := by
  induction m with
  | nil => simp [alistInsert, alistKeys]
  | cons e rest ih =>
    by_cases h : e.1 = k
    · rw [alistInsert, if_pos h]
      simp only [alistKeys, List.map_cons, List.mem_cons]
      constructor
      · rintro (h1 | h1)
        · exact Or.inl h1
        · exact Or.inr (Or.inr h1)
      · rintro (h1 | h1 | h1)
        · exact Or.inl h1
        · rw [h] at h1
          exact Or.inl h1
        · exact Or.inr h1
    · rw [alistInsert, if_neg h]
      simp only [alistKeys, List.map_cons, List.mem_cons]
      simp only [alistKeys] at ih
      rw [ih]
      tauto

theorem nodup_alistKeys_insert {κ α : Type} [DecidableEq κ] (k : κ) (v : α) :
    ∀ {m : List (κ × α)},
      (alistKeys m).Nodup → (alistKeys (alistInsert k v m)).Nodup := by
  intro m
  induction m with
  | nil =>
    intro _
    simp [alistInsert, alistKeys]
  | cons e rest ih =>
    intro hm
    simp only [alistKeys, List.map_cons, List.nodup_cons] at hm
    by_cases h : e.1 = k
    · rw [alistInsert, if_pos h]
      simp only [alistKeys, List.map_cons, List.nodup_cons]
      refine ⟨?_, hm.2⟩
      rw [← h]
      exact hm.1
    · rw [alistInsert, if_neg h]
      simp only [alistKeys, List.map_cons, List.nodup_cons]
      refine ⟨?_, ih hm.2⟩
      intro hx
      rcases (mem_alistKeys_insert k v rest e.1).1 hx with h1 | h1
      · exact h h1
      · exact hm.1 h1

theorem alistLookup_none_iff {κ α : Type} [DecidableEq κ] (k : κ)
    (m : List (κ × α)) : alistLookup k m = none ↔ k ∉ alistKeys m := by
  induction m with
  | nil => simp [alistLookup, alistKeys]
  | cons e rest ih =>
    by_cases h : e.1 = k
    · simp [alistLookup, alistKeys, h]
    · simp [alistLookup, alistKeys, h, ih, Ne.symm h]

theorem alistLookup_some_mem {κ α : Type} [DecidableEq κ] {k : κ} {v : α} :
    ∀ {m : List (κ × α)}, alistLookup k m = some v → (k, v) ∈ m := by
  intro m
  induction m with
  | nil => simp [alistLookup]
  | cons e rest ih =>
    by_cases h : e.1 = k
    · rw [alistLookup, if_pos h]
      intro hv
      have hv' : e.2 = v := by injection hv
      exact List.mem_cons.2 (Or.inl (by rw [← h, ← hv']))
    · rw [alistLookup, if_neg h]
      intro hv
      exact List.mem_cons.2 (Or.inr (ih hv))

theorem alistLookup_some_iff_mem {κ α : Type} [DecidableEq κ] {k : κ} {v : α}
    {m : List (κ × α)} (hm : (alistKeys m).Nodup) :
    alistLookup k m = some v ↔ (k, v) ∈ m := by
  constructor
  · exact alistLookup_some_mem
  · intro hmem
    induction m with
    | nil => simp at hmem
    | cons e rest ih =>
      simp only [alistKeys, List.map_cons, List.nodup_cons] at hm
      rcases List.mem_cons.1 hmem with h1 | h1
      · subst h1
        simp [alistLookup]
      · have hk : e.1 ≠ k := by
          intro he
          exact hm.1 (he ▸ (List.mem_map.2 ⟨(k, v), h1, rfl⟩))
        simp only [alistLookup, if_neg hk]
        exact ih hm.2 h1

theorem alistLookup_eq_of_perm {κ α : Type} [DecidableEq κ] (k : κ)
    {m₁ m₂ : List (κ × α)} (hp : m₁.Perm m₂) (h₁ : (alistKeys m₁).Nodup) :
    alistLookup k m₁ = alistLookup k m₂ := by
  have hkp : (m₁.map (·.1)).Perm (m₂.map (·.1)) := hp.map (·.1)
  have h₂ : (alistKeys m₂).Nodup := hkp.nodup_iff.1 h₁
  cases hv : alistLookup k m₁ with
  | none =>
    rw [alistLookup_none_iff] at hv
    symm
    rw [alistLookup_none_iff]
    intro hk
    exact hv (hkp.mem_iff.2 hk)
  | some v =>
    symm
    rw [alistLookup_some_iff_mem h₂]
    exact hp.mem_iff.1 (alistLookup_some_mem hv)

/-! ## Sorted-list lemmas -/

/-- Two permuted lists that are both strictly ascending along a `Nat` key
are equal. -/
theorem eq_of_perm_of_pairwise_lt {α : Type} (key : α → Nat) :
    ∀ {l₁ l₂ : List α}, l₁.Perm l₂ →
      l₁.Pairwise (fun a b => key a < key b) →
      l₂.Pairwise (fun a b => key a < key b) → l₁ = l₂ := by
  intro l₁
  induction l₁ with
  | nil =>
    intro l₂ hp _ _
    exact (hp.nil_eq).symm ▸ rfl
  | cons a t₁ ih =>
    intro l₂ hp h₁ h₂
    cases l₂ with
    | nil => exact absurd hp.symm (by simp)
    | cons b t₂ =>
      have hab : a = b := by
        by_contra hne
        have hb : b ∈ a :: t₁ := hp.mem_iff.2 (by simp)
        have ha : a ∈ b :: t₂ := hp.mem_iff.1 (by simp)
        have hb' : b ∈ t₁ := by
          rcases List.mem_cons.1 hb with h | h
          · exact absurd h.symm hne
          · exact h
        have ha' : a ∈ t₂ := by
          rcases List.mem_cons.1 ha with h | h
          · exact absurd h hne
          · exact h
        have h1 : key a < key b := List.rel_of_pairwise_cons h₁ hb'
        have h2 : key b < key a := List.rel_of_pairwise_cons h₂ ha'
        omega
      subst hab
      have hpt : t₁.Perm t₂ := hp.cons_inv
      rw [ih hpt h₁.of_cons h₂.of_cons]

/-- A list pairwise-`≤` along a `Nat` key whose keys are distinct is
pairwise-`<`. -/
theorem pairwise_lt_of_pairwise_le_nodup {α : Type} (key : α → Nat)
    {l : List α} (hle : l.Pairwise (fun a b => key a ≤ key b))
    (hnd : (l.map key).Nodup) :
    l.Pairwise (fun a b => key a < key b) := by
  have hne : l.Pairwise (fun a b => key a ≠ key b) :=
    (List.pairwise_map).1 hnd
  exact (hle.and hne).imp fun h => Nat.lt_of_le_of_ne h.1 h.2

/-! ## Merge-engine lemmas -/

theorem dictWF_insert {m : List (Nat × StockDataPoint)} (h : DictWF m)
    (b : StockDataPoint) : DictWF (alistInsert b.date b m) := by
  induction m with
  | nil =>
    intro e he
    simp only [alistInsert, List.mem_singleton] at he
    rw [he]
  | cons x rest ih =>
    have hx : DictWF rest := fun e he => h e (List.mem_cons.2 (Or.inr he))
    by_cases hk : x.1 = b.date
    · rw [alistInsert, if_pos hk]
      intro e he
      rcases List.mem_cons.1 he with h1 | h1
      · rw [h1]
      · exact h e (List.mem_cons.2 (Or.inr h1))
    · rw [alistInsert, if_neg hk]
      intro e he
      rcases List.mem_cons.1 he with h1 | h1
      · exact h e (h1 ▸ List.mem_cons.2 (Or.inl rfl))
      · exact ih hx e h1

theorem dictWF_mergeStep {acc : MergeAcc} (h : DictWF acc.dict)
    (b : StockDataPoint) : DictWF (mergeStep acc b).dict := by
  unfold mergeStep
  cases alistLookup b.date acc.dict with
  | none => exact dictWF_insert h b
  | some e =>
    by_cases hs : is_significantly_different e b
    · simp only [hs, if_true]
      exact dictWF_insert h b
    · simp only [hs, if_false]
      exact h

theorem nodupKeys_mergeStep {acc : MergeAcc} (h : (alistKeys acc.dict).Nodup)
    (b : StockDataPoint) : (alistKeys (mergeStep acc b).dict).Nodup := by
  unfold mergeStep
  cases alistLookup b.date acc.dict with
  | none => exact nodup_alistKeys_insert _ _ h
  | some e =>
    by_cases hs : is_significantly_different e b
    · simp only [hs, if_true]
      exact nodup_alistKeys_insert _ _ h
    · simp only [hs, if_false]
      exact h

theorem mergeStep_lookup_self (acc : MergeAcc) (b : StockDataPoint) :
    alistLookup b.date (mergeStep acc b).dict =
      some (mergeResolve (alistLookup b.date acc.dict) b) := by
  unfold mergeStep mergeResolve
  cases hv : alistLookup b.date acc.dict with
  | none => exact alistLookup_insert_self _ _ _
  | some e =>
    by_cases hs : is_significantly_different e b
    · simp only [hs, if_true]
      exact alistLookup_insert_self _ _ _
    · simp only [hs, if_false]
      exact hv

theorem mergeStep_lookup_ne (acc : MergeAcc) (b : StockDataPoint) {d : Nat}
    (hd : d ≠ b.date) :
    alistLookup d (mergeStep acc b).dict = alistLookup d acc.dict := by
  unfold mergeStep
  cases alistLookup b.date acc.dict with
  | none => exact alistLookup_insert_ne _ hd _
  | some e =>
    dsimp only
    by_cases hs : is_significantly_different e b
    · rw [if_pos hs]
      exact alistLookup_insert_ne _ hd _
    · rw [if_neg hs]

theorem mem_keys_mergeStep (acc : MergeAcc) (b : StockDataPoint) (x : Nat) :
    x ∈ alistKeys (mergeStep acc b).dict ↔
      x = b.date ∨ x ∈ alistKeys acc.dict := by
  unfold mergeStep
  cases hv : alistLookup b.date acc.dict with
  | none => exact mem_alistKeys_insert _ _ _ _
  | some e =>
    have hmem : b.date ∈ alistKeys acc.dict := by
      by_contra hc
      rw [← alistLookup_none_iff] at hc
      rw [hc] at hv
      exact Option.noConfusion hv
    dsimp only
    by_cases hs : is_significantly_different e b
    · rw [if_pos hs]
      exact mem_alistKeys_insert _ _ _ _
    · rw [if_neg hs]
      constructor
      · exact Or.inr
      · rintro (h1 | h1)
        · rw [h1]
          exact hmem
        · exact h1

theorem foldl_mergeStep_lookup_not_mem {d : Nat} :
    ∀ (l : List StockDataPoint) (acc : MergeAcc), d ∉ l.map (·.date) →
      alistLookup d (l.foldl mergeStep acc).dict = alistLookup d acc.dict := by
  intro l
  induction l with
  | nil =>
    intro acc _
    rfl
  | cons b t ih =>
    intro acc hd
    simp only [List.map_cons, List.mem_cons] at hd
    push_neg at hd
    rw [List.foldl_cons, ih _ hd.2, mergeStep_lookup_ne _ _ hd.1]

theorem foldl_mergeStep_lookup_mem :
    ∀ (l : List StockDataPoint) (acc : MergeAcc), (l.map (·.date)).Nodup →
      ∀ b ∈ l, alistLookup b.date (l.foldl mergeStep acc).dict =
        some (mergeResolve (alistLookup b.date acc.dict) b) := by
  intro l
  induction l with
  | nil =>
    intro acc _ b hb
    simp at hb
  | cons a t ih =>
    intro acc hnd b hb
    simp only [List.map_cons, List.nodup_cons] at hnd
    rcases List.mem_cons.1 hb with h1 | h1
    · subst h1
      rw [List.foldl_cons, foldl_mergeStep_lookup_not_mem t _ hnd.1,
        mergeStep_lookup_self]
    · have hne : b.date ≠ a.date := by
        intro he
        exact hnd.1 (he ▸ List.mem_map.2 ⟨b, h1, rfl⟩)
      rw [List.foldl_cons, ih _ hnd.2 b h1, mergeStep_lookup_ne _ _ hne]

theorem foldl_mergeStep_keys :
    ∀ (l : List StockDataPoint) (acc : MergeAcc) (x : Nat),
      x ∈ alistKeys (l.foldl mergeStep acc).dict ↔
        x ∈ alistKeys acc.dict ∨ x ∈ l.map (·.date) := by
  intro l
  induction l with
  | nil =>
    intro acc x
    simp
  | cons b t ih =>
    intro acc x
    rw [List.foldl_cons, ih, mem_keys_mergeStep]
    simp only [List.map_cons, List.mem_cons]
    tauto

theorem foldl_mergeStep_WF :
    ∀ (l : List StockDataPoint) (acc : MergeAcc), DictWF acc.dict →
      DictWF (l.foldl mergeStep acc).dict := by
  intro l
  induction l with
  | nil =>
    intro acc h
    exact h
  | cons b t ih =>
    intro acc h
    rw [List.foldl_cons]
    exact ih _ (dictWF_mergeStep h b)

theorem foldl_mergeStep_nodupKeys :
    ∀ (l : List StockDataPoint) (acc : MergeAcc),
      (alistKeys acc.dict).Nodup →
      (alistKeys (l.foldl mergeStep acc).dict).Nodup := by
  intro l
  induction l with
  | nil =>
    intro acc h
    exact h
  | cons b t ih =>
    intro acc h
    rw [List.foldl_cons]
    exact ih _ (nodupKeys_mergeStep h b)

theorem foldl_mergeStep_counts (m₀ : List (Nat × StockDataPoint)) :
    ∀ (l : List StockDataPoint) (acc : MergeAcc), (l.map (·.date)).Nodup →
      (∀ b ∈ l, alistLookup b.date acc.dict = alistLookup b.date m₀) →
      (l.foldl mergeStep acc).newPoints =
          acc.newPoints +
            (l.filter fun b => (alistLookup b.date m₀).isNone).length ∧
        (l.foldl mergeStep acc).duplicates =
          acc.duplicates +
            (l.filter fun b =>
              match alistLookup b.date m₀ with
              | some e => !is_significantly_different e b
              | none => false).length ∧
        (l.foldl mergeStep acc).warnings =
          acc.warnings ++
            ((l.filter fun b =>
                match alistLookup b.date m₀ with
                | some e => is_significantly_different e b
                | none => false).map
              fun b => MergeWarning.updated b.date) := by
  intro l
  induction l with
  | nil =>
    intro acc _ _
    simp
  | cons b t ih =>
    intro acc hnd hagree
    simp only [List.map_cons, List.nodup_cons] at hnd
    have hb0 : alistLookup b.date acc.dict = alistLookup b.date m₀ :=
      hagree b (List.mem_cons.2 (Or.inl rfl))
    have hagree' : ∀ b' ∈ t,
        alistLookup b'.date (mergeStep acc b).dict =
          alistLookup b'.date m₀ := by
      intro b' hb'
      have hne : b'.date ≠ b.date := by
        intro he
        exact hnd.1 (he ▸ List.mem_map.2 ⟨b', hb', rfl⟩)
      rw [mergeStep_lookup_ne _ _ hne]
      exact hagree b' (List.mem_cons.2 (Or.inr hb'))
    have iht := ih (mergeStep acc b) hnd.2 hagree'
    rw [List.foldl_cons]
    cases hv : alistLookup b.date m₀ with
    | none =>
      have hF1 : (List.filter (fun b => (alistLookup b.date m₀).isNone)
          (b :: t)) =
          b :: List.filter (fun b => (alistLookup b.date m₀).isNone) t := by
        simp [List.filter_cons, hv]
      have hF2 : (List.filter (fun b =>
            match alistLookup b.date m₀ with
            | some e => !is_significantly_different e b
            | none => false) (b :: t)) =
          List.filter (fun b =>
            match alistLookup b.date m₀ with
            | some e => !is_significantly_different e b
            | none => false) t := by
        simp [List.filter_cons, hv]
      have hF3 : (List.filter (fun b =>
            match alistLookup b.date m₀ with
            | some e => is_significantly_different e b
            | none => false) (b :: t)) =
          List.filter (fun b =>
            match alistLookup b.date m₀ with
            | some e => is_significantly_different e b
            | none => false) t := by
        simp [List.filter_cons, hv]
      have hstep : mergeStep acc b =
          { acc with
              dict := alistInsert b.date b acc.dict
              newPoints := acc.newPoints + 1 } := by
        unfold mergeStep
        rw [hb0, hv]
      rw [hstep] at iht ⊢
      refine ⟨?_, ?_, ?_⟩
      · rw [iht.1, hF1, List.length_cons]
        dsimp only
        omega
      · rw [iht.2.1, hF2]
      · rw [iht.2.2, hF3]
    | some e =>
      by_cases hs : is_significantly_different e b
      · have hF1 : (List.filter (fun b => (alistLookup b.date m₀).isNone)
            (b :: t)) =
            List.filter (fun b => (alistLookup b.date m₀).isNone) t := by
          simp [List.filter_cons, hv]
        have hF2 : (List.filter (fun b =>
              match alistLookup b.date m₀ with
              | some e => !is_significantly_different e b
              | none => false) (b :: t)) =
            List.filter (fun b =>
              match alistLookup b.date m₀ with
              | some e => !is_significantly_different e b
              | none => false) t := by
          simp [List.filter_cons, hv, hs]
        have hF3 : (List.filter (fun b =>
              match alistLookup b.date m₀ with
              | some e => is_significantly_different e b
              | none => false) (b :: t)) =
            b :: List.filter (fun b =>
              match alistLookup b.date m₀ with
              | some e => is_significantly_different e b
              | none => false) t := by
          simp [List.filter_cons, hv, hs]
        have hstep : mergeStep acc b =
            { acc with
                dict := alistInsert b.date b acc.dict
                warnings :=
                  acc.warnings ++ [MergeWarning.updated b.date] } := by
          unfold mergeStep
          rw [hb0, hv]
          dsimp only
          rw [if_pos hs]
        rw [hstep] at iht ⊢
        refine ⟨?_, ?_, ?_⟩
        · rw [iht.1, hF1]
        · rw [iht.2.1, hF2]
        · rw [iht.2.2, hF3, List.map_cons]
          dsimp only
          rw [List.append_assoc, List.singleton_append]
      · have hsf : is_significantly_different e b = false := by
          revert hs
          cases is_significantly_different e b <;> simp
        have hF1 : (List.filter (fun b => (alistLookup b.date m₀).isNone)
            (b :: t)) =
            List.filter (fun b => (alistLookup b.date m₀).isNone) t := by
          simp [List.filter_cons, hv]
        have hF2 : (List.filter (fun b =>
              match alistLookup b.date m₀ with
              | some e => !is_significantly_different e b
              | none => false) (b :: t)) =
            b :: List.filter (fun b =>
              match alistLookup b.date m₀ with
              | some e => !is_significantly_different e b
              | none => false) t := by
          simp [List.filter_cons, hv, hsf]
        have hF3 : (List.filter (fun b =>
              match alistLookup b.date m₀ with
              | some e => is_significantly_different e b
              | none => false) (b :: t)) =
            List.filter (fun b =>
              match alistLookup b.date m₀ with
              | some e => is_significantly_different e b
              | none => false) t := by
          simp [List.filter_cons, hv, hsf]
        have hstep : mergeStep acc b =
            { acc with duplicates := acc.duplicates + 1 } := by
          unfold mergeStep
          rw [hb0, hv]
          dsimp only
          rw [if_neg hs]
        rw [hstep] at iht ⊢
        refine ⟨?_, ?_, ?_⟩
        · rw [iht.1, hF1]
        · rw [iht.2.1, hF2, List.length_cons]
          dsimp only
          omega
        · rw [iht.2.2, hF3]

theorem alistKeys_append {κ α : Type} (m n : List (κ × α)) :
    alistKeys (m ++ n) = alistKeys m ++ alistKeys n :=
  List.map_append _ m n

theorem alistInsert_not_mem {κ α : Type} [DecidableEq κ] {k : κ} (v : α) :
    ∀ {m : List (κ × α)}, k ∉ alistKeys m → alistInsert k v m = m ++ [(k, v)] := by
  intro m
  induction m with
  | nil =>
    intro _
    rfl
  | cons e rest ih =>
    intro h
    simp only [alistKeys, List.map_cons, List.mem_cons] at h
    push_neg at h
    rw [alistInsert, if_neg (Ne.symm h.1), ih h.2, List.cons_append]

theorem foldl_insert_WF :
    ∀ (l : List StockDataPoint) (m : List (Nat × StockDataPoint)), DictWF m →
      DictWF (l.foldl (fun m p => alistInsert p.date p m) m) := by
  intro l
  induction l with
  | nil =>
    intro m h
    exact h
  | cons p t ih =>
    intro m h
    rw [List.foldl_cons]
    exact ih _ (dictWF_insert h p)

theorem dictWF_buildDict (l : List StockDataPoint) : DictWF (buildDict l) :=
  foldl_insert_WF l [] (by intro e he; simp at he)

theorem foldl_insert_nodupKeys :
    ∀ (l : List StockDataPoint) (m : List (Nat × StockDataPoint)),
      (alistKeys m).Nodup →
      (alistKeys (l.foldl (fun m p => alistInsert p.date p m) m)).Nodup := by
  intro l
  induction l with
  | nil =>
    intro m h
    exact h
  | cons p t ih =>
    intro m h
    rw [List.foldl_cons]
    exact ih _ (nodup_alistKeys_insert _ _ h)

theorem nodupKeys_buildDict (l : List StockDataPoint) :
    (alistKeys (buildDict l)).Nodup :=
  foldl_insert_nodupKeys l [] (by simp [alistKeys])

theorem foldl_insert_keys :
    ∀ (l : List StockDataPoint) (m : List (Nat × StockDataPoint)) (x : Nat),
      x ∈ alistKeys (l.foldl (fun m p => alistInsert p.date p m) m) ↔
        x ∈ alistKeys m ∨ x ∈ l.map (·.date) := by
  intro l
  induction l with
  | nil =>
    intro m x
    simp
  | cons p t ih =>
    intro m x
    rw [List.foldl_cons, ih, mem_alistKeys_insert]
    simp only [List.map_cons, List.mem_cons]
    tauto

theorem mem_keys_buildDict (l : List StockDataPoint) (x : Nat) :
    x ∈ alistKeys (buildDict l) ↔ x ∈ l.map (·.date) := by
  rw [buildDict, foldl_insert_keys]
  simp [alistKeys]

theorem foldl_insert_eq_append :
    ∀ (l : List StockDataPoint) (m : List (Nat × StockDataPoint)),
      (∀ p ∈ l, p.date ∉ alistKeys m) → (l.map (·.date)).Nodup →
      l.foldl (fun m p => alistInsert p.date p m) m =
        m ++ l.map fun p => (p.date, p) := by
  intro l
  induction l with
  | nil =>
    intro m _ _
    simp
  | cons p t ih =>
    intro m hmem hnd
    simp only [List.map_cons, List.nodup_cons] at hnd
    rw [List.foldl_cons,
      alistInsert_not_mem p (hmem p (List.mem_cons.2 (Or.inl rfl)))]
    rw [ih (m ++ [(p.date, p)]) ?_ hnd.2]
    · rw [List.append_assoc, List.map_cons, List.singleton_append]
    · intro q hq
      rw [alistKeys_append]
      simp only [List.mem_append]
      push_neg
      constructor
      · exact hmem q (List.mem_cons.2 (Or.inr hq))
      · have hne : q.date ≠ p.date := by
          intro he
          exact hnd.1 (he ▸ List.mem_map.2 ⟨q, hq, rfl⟩)
        simp [alistKeys, hne]

theorem buildDict_eq_map {l : List StockDataPoint}
    (hnd : (l.map (·.date)).Nodup) :
    buildDict l = l.map fun p => (p.date, p) := by
  rw [buildDict, foldl_insert_eq_append l [] (by simp [alistKeys]) hnd]
  simp

theorem alistLookup_map_pair :
    ∀ (l : List StockDataPoint) (d : Nat),
      alistLookup d (l.map fun p => (p.date, p)) = findByDate l d := by
  intro l
  induction l with
  | nil =>
    intro d
    rfl
  | cons p t ih =>
    intro d
    by_cases h : p.date = d
    · simp [alistLookup, findByDate, List.find?_cons, h]
    · simp only [List.map_cons, alistLookup, if_neg h, findByDate,
        List.find?_cons]
      rw [decide_eq_false h]
      exact ih d

theorem buildDict_lookup {l : List StockDataPoint}
    (hnd : (l.map (·.date)).Nodup) (d : Nat) :
    alistLookup d (buildDict l) = findByDate l d := by
  rw [buildDict_eq_map hnd, alistLookup_map_pair]

theorem values_map_date :
    ∀ (m : List (Nat × StockDataPoint)), DictWF m →
      (m.map (·.2)).map (·.date) = alistKeys m := by
  intro m
  induction m with
  | nil =>
    intro _
    rfl
  | cons e rest ih =>
    intro h
    simp only [List.map_cons, alistKeys]
    rw [h e (List.mem_cons.2 (Or.inl rfl))]
    have := ih fun x hx => h x (List.mem_cons.2 (Or.inr hx))
    simp only [alistKeys] at this
    rw [this]

theorem insertionSort_date_pairwise (l : List StockDataPoint) :
    (l.insertionSort dateKeyLe).Pairwise fun a b => a.date ≤ b.date :=
  (List.sorted_insertionSort dateKeyLe l).imp fun hab => hab

/-- A list that is already strictly ascending by date is a fixed point of
the merge's date sort. -/
theorem insertionSort_date_eq_self {l : List StockDataPoint}
    (h : l.Pairwise fun a b => a.date < b.date) :
    l.insertionSort dateKeyLe = l := by
  have hperm : (l.insertionSort dateKeyLe).Perm l :=
    List.perm_insertionSort dateKeyLe l
  have hle := insertionSort_date_pairwise l
  have hnd : ((l.insertionSort dateKeyLe).map (·.date)).Nodup := by
    have : (l.map (·.date)).Pairwise (· < ·) :=
      (List.pairwise_map).2 (h.imp fun hab => hab)
    have hnd0 : (l.map (·.date)).Nodup :=
      this.imp fun hab => Nat.ne_of_lt hab
    exact ((hperm.map (·.date)).nodup_iff).2 hnd0
  exact eq_of_perm_of_pairwise_lt (·.date) hperm
    (pairwise_lt_of_pairwise_le_nodup _ hle hnd) h

/-- The merged output of `_merge_price_data`, unfolded. -/
theorem merge_price_data_fst (existing incoming : List StockDataPoint) :
    (merge_price_data existing incoming).1 =
      (((incoming.foldl mergeStep
          ⟨buildDict existing, 0, 0, []⟩).dict).map (·.2)).insertionSort
        dateKeyLe :=
  rfl

theorem merge_price_data_new_points (existing incoming : List StockDataPoint) :
    (merge_price_data existing incoming).2.new_points =
      (incoming.foldl mergeStep ⟨buildDict existing, 0, 0, []⟩).newPoints :=
  rfl

theorem merge_price_data_duplicates (existing incoming : List StockDataPoint) :
    (merge_price_data existing incoming).2.duplicates =
      (incoming.foldl mergeStep ⟨buildDict existing, 0, 0, []⟩).duplicates :=
  rfl

theorem merge_price_data_warnings (existing incoming : List StockDataPoint) :
    (merge_price_data existing incoming).2.warnings =
      (incoming.foldl mergeStep ⟨buildDict existing, 0, 0, []⟩).warnings ++
        ((check_for_gaps (merge_price_data existing incoming).1).take 3).map
          fun g => MergeWarning.gap g.1 g.2 :=
  rfl

/-- Core of claim C1: the merged series is strictly ascending by date,
for arbitrary existing and incoming series. -/
theorem merge_pairwise_lt (existing incoming : List StockDataPoint) :
    (merge_price_data existing incoming).1.Pairwise
      fun a b => a.date < b.date := by
  have hWF : DictWF (incoming.foldl mergeStep
      ⟨buildDict existing, 0, 0, []⟩).dict :=
    foldl_mergeStep_WF _ _ (dictWF_buildDict existing)
  have hnk : (alistKeys (incoming.foldl mergeStep
      ⟨buildDict existing, 0, 0, []⟩).dict).Nodup :=
    foldl_mergeStep_nodupKeys _ _ (nodupKeys_buildDict existing)
  rw [merge_price_data_fst]
  have hle := insertionSort_date_pairwise
    (((incoming.foldl mergeStep ⟨buildDict existing, 0, 0, []⟩).dict).map (·.2))
  have hperm := List.perm_insertionSort dateKeyLe
    (((incoming.foldl mergeStep ⟨buildDict existing, 0, 0, []⟩).dict).map (·.2))
  have hnd : ((((incoming.foldl mergeStep
      ⟨buildDict existing, 0, 0, []⟩).dict).map (·.2)).insertionSort
        dateKeyLe).map (·.date) |>.Nodup := by
    have h1 := (hperm.map (·.date)).nodup_iff
    rw [values_map_date _ hWF] at h1
    exact h1.2 hnk
  exact pairwise_lt_of_pairwise_le_nodup _ hle hnd

/-- C1: for every existing series and every incoming series of daily bars,
the merged series returned by `_merge_price_data` is strictly increasing by
date — in particular it has no duplicate dates. -/
theorem merged_chronology_invariant (existing incoming : List StockDataPoint) :
    (merge_price_data existing incoming).1.Pairwise
      fun a b => a.date < b.date :=
  merge_pairwise_lt existing incoming

/-- C10: the dates of the merged output are exactly the union of the
existing dates and the incoming dates (no existing date is ever removed),
and the merged length is the size of that union. -/
theorem merge_dates_union (existing incoming : List StockDataPoint) :
    ((merge_price_data existing incoming).1.map (·.date)).toFinset =
        (existing.map (·.date)).toFinset ∪ (incoming.map (·.date)).toFinset ∧
      (merge_price_data existing incoming).1.length =
        ((existing.map (·.date)).toFinset ∪
          (incoming.map (·.date)).toFinset).card := by
  have hWF := foldl_mergeStep_WF incoming ⟨buildDict existing, 0, 0, []⟩
    (dictWF_buildDict existing)
  have hnk := foldl_mergeStep_nodupKeys incoming ⟨buildDict existing, 0, 0, []⟩
    (nodupKeys_buildDict existing)
  have hperm := List.perm_insertionSort dateKeyLe
    (((incoming.foldl mergeStep ⟨buildDict existing, 0, 0, []⟩).dict).map (·.2))
  have hmd : ((merge_price_data existing incoming).1.map (·.date)).Perm
      (alistKeys (incoming.foldl mergeStep
        ⟨buildDict existing, 0, 0, []⟩).dict) := by
    rw [merge_price_data_fst]
    have h2 := hperm.map (·.date)
    rw [values_map_date _ hWF] at h2
    exact h2
  have hsetkeys : (alistKeys (incoming.foldl mergeStep
        ⟨buildDict existing, 0, 0, []⟩).dict).toFinset =
      (existing.map (·.date)).toFinset ∪ (incoming.map (·.date)).toFinset := by
    ext a
    simp only [List.mem_toFinset, Finset.mem_union]
    rw [foldl_mergeStep_keys, mem_keys_buildDict]
  constructor
  · rw [List.toFinset_eq_of_perm _ _ hmd, hsetkeys]
  · rw [← hsetkeys, List.toFinset_card_of_nodup hnk, ← hmd.length_eq,
      List.length_map]

theorem findByDate_of_mem :
    ∀ {l : List StockDataPoint}, (l.map (·.date)).Nodup →
      ∀ {x : StockDataPoint}, x ∈ l → findByDate l x.date = some x := by
  intro l
  induction l with
  | nil =>
    intro _ x hx
    simp at hx
  | cons p t ih =>
    intro hnd x hx
    simp only [List.map_cons, List.nodup_cons] at hnd
    rcases List.mem_cons.1 hx with h1 | h1
    · subst h1
      simp [findByDate, List.find?_cons]
    · have hne : p.date ≠ x.date := by
        intro he
        exact hnd.1 (he ▸ List.mem_map.2 ⟨x, h1, rfl⟩)
      rw [findByDate, List.find?_cons, decide_eq_false hne]
      exact ih hnd.2 h1

/-- Lookup by date in any permutation of the dict's values agrees with the
dict lookup. -/
theorem findByDate_eq_lookup {m : List (Nat × StockDataPoint)}
    (hWF : DictWF m) (hnk : (alistKeys m).Nodup) {l : List StockDataPoint}
    (hperm : l.Perm (m.map (·.2))) (d : Nat) :
    findByDate l d = alistLookup d m := by
  have hvd : (m.map (·.2)).map (·.date) = alistKeys m := values_map_date m hWF
  have hnd : (l.map (·.date)).Nodup := by
    have := (hperm.map (·.date)).nodup_iff
    rw [hvd] at this
    exact this.2 hnk
  cases hv : alistLookup d m with
  | none =>
    rw [alistLookup_none_iff] at hv
    apply List.find?_eq_none.2
    intro x hx
    simp only [decide_eq_true_eq]
    intro hd
    apply hv
    have hxv : x ∈ m.map (·.2) := hperm.mem_iff.1 hx
    obtain ⟨e, he, hee⟩ := List.mem_map.1 hxv
    refine List.mem_map.2 ⟨e, he, ?_⟩
    rw [← hWF e he, hee, hd]
  | some v =>
    have hmem : (d, v) ∈ m := alistLookup_some_mem hv
    have hvdate : v.date = d := hWF (d, v) hmem
    have hvl : v ∈ l := hperm.mem_iff.2 (List.mem_map.2 ⟨(d, v), hmem, rfl⟩)
    rw [← hvdate]
    exact findByDate_of_mem hnd hvl

theorem filter_isUpdated_map_updated (l : List StockDataPoint) :
    ((l.map fun b => MergeWarning.updated b.date).filter
      MergeWarning.isUpdated) = l.map fun b => MergeWarning.updated b.date := by
  rw [List.filter_eq_self]
  intro a ha
  obtain ⟨b, _, hb⟩ := List.mem_map.1 ha
  rw [← hb]
  rfl

theorem filter_isUpdated_map_gap (g : List (Nat × Nat)) :
    ((g.map fun p => MergeWarning.gap p.1 p.2).filter
      MergeWarning.isUpdated) = [] := by
  rw [List.filter_eq_nil_iff]
  intro a ha
  obtain ⟨p, _, hp⟩ := List.mem_map.1 ha
  rw [← hp]
  simp [MergeWarning.isUpdated]

/-- C2: with valid (duplicate-free) series on both sides, an incoming bar
whose date is present overwrites the existing bar (with an overwrite
warning) exactly when `_is_significantly_different` holds, is discarded and
counted as a duplicate otherwise, and an incoming bar whose date is absent
is inserted and counted as a new point. -/
theorem merge_overwrite_policy (existing incoming : List StockDataPoint)
    (hex : (existing.map (·.date)).Nodup)
    (hin : (incoming.map (·.date)).Nodup) :
    (merge_price_data existing incoming).2.new_points =
        (incoming.filter (isNewFor existing)).length ∧
      (merge_price_data existing incoming).2.duplicates =
        (incoming.filter (isDupFor existing)).length ∧
      (merge_price_data existing incoming).2.warnings.filter
          MergeWarning.isUpdated =
        (incoming.filter (isOvwFor existing)).map
          (fun b => MergeWarning.updated b.date) ∧
      ∀ b ∈ incoming,
        findByDate (merge_price_data existing incoming).1 b.date =
          some (mergeResolve (findByDate existing b.date) b) := by
  have hagree : ∀ b ∈ incoming,
      alistLookup b.date (⟨buildDict existing, 0, 0, []⟩ : MergeAcc).dict =
        alistLookup b.date (buildDict existing) := fun _ _ => rfl
  have hcounts := foldl_mergeStep_counts (buildDict existing) incoming
    ⟨buildDict existing, 0, 0, []⟩ hin hagree
  have hFnew : (fun b => (alistLookup b.date (buildDict existing)).isNone) =
      isNewFor existing := by
    funext b
    show (alistLookup b.date (buildDict existing)).isNone =
      (findByDate existing b.date).isNone
    rw [buildDict_lookup hex]
  have hFdup : (fun b =>
      match alistLookup b.date (buildDict existing) with
      | some e => !is_significantly_different e b
      | none => false) = isDupFor existing := by
    funext b
    show (match alistLookup b.date (buildDict existing) with
        | some e => !is_significantly_different e b
        | none => false) =
      (match findByDate existing b.date with
        | some e => !is_significantly_different e b
        | none => false)
    rw [buildDict_lookup hex]
  have hFovw : (fun b =>
      match alistLookup b.date (buildDict existing) with
      | some e => is_significantly_different e b
      | none => false) = isOvwFor existing := by
    funext b
    show (match alistLookup b.date (buildDict existing) with
        | some e => is_significantly_different e b
        | none => false) =
      (match findByDate existing b.date with
        | some e => is_significantly_different e b
        | none => false)
    rw [buildDict_lookup hex]
  rw [hFnew, hFdup, hFovw] at hcounts
  refine ⟨?_, ?_, ?_, ?_⟩
  · rw [merge_price_data_new_points, hcounts.1]
    exact Nat.zero_add _
  · rw [merge_price_data_duplicates, hcounts.2.1]
    exact Nat.zero_add _
  · rw [merge_price_data_warnings, List.filter_append, hcounts.2.2,
      filter_isUpdated_map_gap, List.append_nil]
    have : (⟨buildDict existing, 0, 0, []⟩ : MergeAcc).warnings = [] := rfl
    rw [this, List.nil_append, filter_isUpdated_map_updated]
  · intro b hb
    have hWF := foldl_mergeStep_WF incoming ⟨buildDict existing, 0, 0, []⟩
      (dictWF_buildDict existing)
    have hnk := foldl_mergeStep_nodupKeys incoming
      ⟨buildDict existing, 0, 0, []⟩ (nodupKeys_buildDict existing)
    have hperm : (merge_price_data existing incoming).1.Perm
        (((incoming.foldl mergeStep
          ⟨buildDict existing, 0, 0, []⟩).dict).map (·.2)) := by
      rw [merge_price_data_fst]
      exact List.perm_insertionSort _ _
    rw [findByDate_eq_lookup hWF hnk hperm,
      foldl_mergeStep_lookup_mem incoming _ hin b hb]
    have : alistLookup b.date
        (⟨buildDict existing, 0, 0, []⟩ : MergeAcc).dict =
        findByDate existing b.date := buildDict_lookup hex b.date
    rw [this]

theorem is_significantly_different_self (b : StockDataPoint) :
    is_significantly_different b b = false := by
  unfold is_significantly_different
  simp

theorem nodup_dates_of_pairwise_lt {l : List StockDataPoint}
    (h : l.Pairwise fun a b => a.date < b.date) :
    (l.map (·.date)).Nodup :=
  (List.pairwise_map).2 (h.imp fun hab => Nat.ne_of_lt hab)

theorem map_pair_values :
    ∀ (m : List (Nat × StockDataPoint)), DictWF m →
      (m.map (·.2)).map (fun p => (p.date, p)) = m := by
  intro m
  induction m with
  | nil =>
    intro _
    rfl
  | cons e rest ih =>
    intro h
    simp only [List.map_cons]
    rw [ih fun x hx => h x (List.mem_cons.2 (Or.inr hx))]
    have he : e.2.date = e.1 := h e (List.mem_cons.2 (Or.inl rfl))
    have : (e.2.date, e.2) = e := Prod.ext he rfl
    rw [this]

theorem foldl_mergeStep_all_dup :
    ∀ (l : List StockDataPoint) (acc : MergeAcc),
      (∀ b ∈ l, ∃ v, alistLookup b.date acc.dict = some v ∧
        is_significantly_different v b = false) →
      l.foldl mergeStep acc =
        { acc with duplicates := acc.duplicates + l.length } := by
  intro l
  induction l with
  | nil =>
    intro acc _
    show acc = { acc with duplicates := acc.duplicates + 0 }
    cases acc
    rfl
  | cons b t ih =>
    intro acc h
    obtain ⟨v, hv, hs⟩ := h b (List.mem_cons.2 (Or.inl rfl))
    have hstep : mergeStep acc b =
        { acc with duplicates := acc.duplicates + 1 } := by
      unfold mergeStep
      rw [hv]
      dsimp only
      rw [if_neg]
      rw [hs]
      exact Bool.false_ne_true
    have h' : ∀ b' ∈ t, ∃ v, alistLookup b'.date
        ({ acc with duplicates := acc.duplicates + 1 } : MergeAcc).dict =
          some v ∧ is_significantly_different v b' = false := by
      intro b' hb'
      exact h b' (List.mem_cons.2 (Or.inr hb'))
    rw [List.foldl_cons, hstep, ih _ h', List.length_cons]
    show ({ acc with duplicates := acc.duplicates + 1 + t.length } : MergeAcc) =
      { acc with duplicates := acc.duplicates + (t.length + 1) }
    have harith : acc.duplicates + 1 + t.length =
        acc.duplicates + (t.length + 1) := by omega
    rw [harith]

/-- C4: merging an already-merged series with the same incoming batch a
second time yields zero new points and zero overwrite warnings, counts
every incoming bar as a duplicate, and leaves the series unchanged. -/
theorem merge_idempotent (existing incoming : List StockDataPoint)
    (hin : (incoming.map (·.date)).Nodup) :
    (merge_price_data (merge_price_data existing incoming).1 incoming).1 =
        (merge_price_data existing incoming).1 ∧
      (merge_price_data (merge_price_data existing incoming).1
          incoming).2.new_points = 0 ∧
      (merge_price_data (merge_price_data existing incoming).1
          incoming).2.duplicates = incoming.length ∧
      (merge_price_data (merge_price_data existing incoming).1
          incoming).2.warnings.filter MergeWarning.isUpdated = [] := by
  have hM : (merge_price_data existing incoming).1.Pairwise
      fun a b => a.date < b.date := merge_pairwise_lt existing incoming
  have hMnd := nodup_dates_of_pairwise_lt hM
  have hWF1 := foldl_mergeStep_WF incoming ⟨buildDict existing, 0, 0, []⟩
    (dictWF_buildDict existing)
  have hnk1 := foldl_mergeStep_nodupKeys incoming
    ⟨buildDict existing, 0, 0, []⟩ (nodupKeys_buildDict existing)
  have hpermM : (merge_price_data existing incoming).1.Perm
      (((incoming.foldl mergeStep
        ⟨buildDict existing, 0, 0, []⟩).dict).map (·.2)) := by
    rw [merge_price_data_fst]
    exact List.perm_insertionSort _ _
  have hdictperm : (buildDict (merge_price_data existing incoming).1).Perm
      (incoming.foldl mergeStep ⟨buildDict existing, 0, 0, []⟩).dict := by
    rw [buildDict_eq_map hMnd]
    have := hpermM.map fun p => (p.date, p)
    rw [map_pair_values _ hWF1] at this
    exact this
  have hdup : ∀ b ∈ incoming, ∃ v,
      alistLookup b.date
          (buildDict (merge_price_data existing incoming).1) = some v ∧
        is_significantly_different v b = false := by
    intro b hb
    have hlk := foldl_mergeStep_lookup_mem incoming
      ⟨buildDict existing, 0, 0, []⟩ hin b hb
    have heq : alistLookup b.date
        (buildDict (merge_price_data existing incoming).1) =
        alistLookup b.date
          (incoming.foldl mergeStep ⟨buildDict existing, 0, 0, []⟩).dict :=
      alistLookup_eq_of_perm _ hdictperm
        (nodupKeys_buildDict (merge_price_data existing incoming).1)
    refine ⟨mergeResolve (alistLookup b.date
      ((⟨buildDict existing, 0, 0, []⟩ : MergeAcc)).dict) b, ?_, ?_⟩
    · rw [heq, hlk]
    · unfold mergeResolve
      cases alistLookup b.date
          ((⟨buildDict existing, 0, 0, []⟩ : MergeAcc)).dict with
      | none => exact is_significantly_different_self b
      | some e =>
        dsimp only
        by_cases hs : is_significantly_different e b
        · rw [if_pos hs]
          exact is_significantly_different_self b
        · rw [if_neg hs]
          cases hxx : is_significantly_different e b with
          | false => rfl
          | true => exact absurd hxx hs
  have hfold := foldl_mergeStep_all_dup incoming
    ⟨buildDict (merge_price_data existing incoming).1, 0, 0, []⟩ hdup
  have hvals : ((incoming.foldl mergeStep
      ⟨buildDict (merge_price_data existing incoming).1, 0, 0,
        []⟩).dict).map (·.2) = (merge_price_data existing incoming).1 := by
    rw [hfold]
    show ((buildDict (merge_price_data existing incoming).1).map (·.2)) = _
    rw [buildDict_eq_map hMnd, List.map_map]
    exact List.map_id _
  refine ⟨?_, ?_, ?_, ?_⟩
  · rw [merge_price_data_fst, hvals]
    exact insertionSort_date_eq_self hM
  · rw [merge_price_data_new_points, hfold]
  · rw [merge_price_data_duplicates, hfold]
    exact Nat.zero_add _
  · rw [merge_price_data_warnings, List.filter_append, hfold]
    rw [List.filter_nil, List.nil_append, filter_isUpdated_map_gap]

/-- C3 counterexample: a non-empty fetch whose merge yields zero new
points does not short-circuit — the code still reports `success`, writes
the daily file, updates the catalog and invalidates the cache (skipping
only the weekly reprocessing and the indicator recalculation). -/
theorem incremental_no_short_circuit_counterexample :
    (merge_price_data exC3 incC3).2.new_points = 0 ∧
      download_incremental_for_symbol exC3 incC3 true true =
        ("success",
          [Effect.uploadDaily, Effect.updateCatalog, Effect.invalidateCache]) ∧
      (download_incremental_for_symbol exC3 incC3 true true).1 ≠
        "no_new_data" ∧
      Effect.uploadDaily ∈
        (download_incremental_for_symbol exC3 incC3 true true).2 := by
  have hnew : (merge_price_data exC3 incC3).2.new_points = 0 := by
    rw [merge_price_data_new_points,
      (foldl_mergeStep_counts (buildDict exC3) incC3
        ⟨buildDict exC3, 0, 0, []⟩ (by decide) (fun _ _ => rfl)).1]
    decide
  have hrun : download_incremental_for_symbol exC3 incC3 true true =
      ("success",
        [Effect.uploadDaily, Effect.updateCatalog, Effect.invalidateCache]) := by
    unfold download_incremental_for_symbol
    rw [if_neg (by decide : ¬(exC3.isEmpty = true)),
      if_neg (by decide : ¬(incC3.isEmpty = true))]
    dsimp only
    rw [hnew]
    decide
  exact ⟨hnew, hrun, by rw [hrun]; decide, by rw [hrun]; decide⟩

/-- C3 (amended): the incremental pipeline touches nothing and reports
`no_new_data` only when the provider fetch is empty; when the fetch is
non-empty but merges to zero new points, the daily file is still written
and the catalog and cache are still updated — only the weekly
reprocessing and the indicator recalculation are skipped. -/
theorem incremental_zero_new_points_effects
    (existing fetched : List StockDataPoint) (c u : Bool)
    (hex : existing ≠ []) :
    download_incremental_for_symbol existing [] c u = ("no_new_data", []) ∧
      (fetched ≠ [] →
        (merge_price_data existing fetched).2.new_points = 0 →
        download_incremental_for_symbol existing fetched c true =
          ("success",
            [Effect.uploadDaily, Effect.updateCatalog,
              Effect.invalidateCache])) := by
  constructor
  · unfold download_incremental_for_symbol
    rw [if_neg (by simp [List.isEmpty_iff, hex] :
      ¬(existing.isEmpty = true))]
    rfl
  · intro hf hnew
    unfold download_incremental_for_symbol
    rw [if_neg (by simp [List.isEmpty_iff, hex] :
        ¬(existing.isEmpty = true)),
      if_neg (by simp [List.isEmpty_iff, hf] : ¬(fetched.isEmpty = true))]
    dsimp only
    rw [hnew]
    simp

theorem incremental_zero_new_points_effects_witness :
    (exC3 ≠ [] ∧ incC3 ≠ [] ∧
        (merge_price_data exC3 incC3).2.new_points = 0) ∧
      download_incremental_for_symbol exC3 [] true true =
        ("no_new_data", []) ∧
      download_incremental_for_symbol exC3 incC3 true true =
        ("success",
          [Effect.uploadDaily, Effect.updateCatalog,
            Effect.invalidateCache]) := by
  have hnew : (merge_price_data exC3 incC3).2.new_points = 0 := by
    rw [merge_price_data_new_points,
      (foldl_mergeStep_counts (buildDict exC3) incC3
        ⟨buildDict exC3, 0, 0, []⟩ (by decide) (fun _ _ => rfl)).1]
    decide
  have h := incremental_zero_new_points_effects exC3 incC3 true true
    (by decide)
  exact ⟨⟨by decide, by decide, hnew⟩, h.1, h.2 (by decide) hnew⟩

/-! ## Weekly-aggregation lemmas -/

theorem dedup_const {α : Type} [DecidableEq α] (c : α) :
    ∀ (l : List α), l ≠ [] → (∀ x ∈ l, x = c) → l.dedup = [c] := by
  intro l
  induction l with
  | nil =>
    intro h _
    exact absurd rfl h
  | cons a t ih =>
    intro _ hall
    have ha : a = c := hall a (List.mem_cons.2 (Or.inl rfl))
    cases t with
    | nil => simp [ha]
    | cons b s =>
      have hmem : a ∈ b :: s := by
        have hb : b = c := hall b (by simp)
        rw [ha, hb]
        exact List.mem_cons.2 (Or.inl rfl)
      rw [List.dedup_cons_of_mem hmem]
      exact ih (by simp) fun x hx => hall x (List.mem_cons.2 (Or.inr hx))

theorem getLastD_max :
    ∀ (rest : List StockDataPoint) (first : StockDataPoint),
      ((first :: rest).Pairwise fun a b => a.date ≤ b.date) →
      rest.getLastD first ∈ first :: rest ∧
        ∀ b ∈ first :: rest, b.date ≤ (rest.getLastD first).date := by
  intro rest
  induction rest with
  | nil =>
    intro first _
    refine ⟨by simp, ?_⟩
    intro b hb
    rw [List.mem_singleton] at hb
    rw [hb]
    exact le_refl _
  | cons x t ih =>
    intro first hpair
    rw [List.getLastD_cons]
    have htail := hpair.of_cons
    obtain ⟨hmem, hbound⟩ := ih x htail
    refine ⟨List.mem_cons.2 (Or.inr hmem), ?_⟩
    intro b hb
    rcases List.mem_cons.1 hb with h1 | h1
    · rw [h1]
      exact Nat.le_trans (List.rel_of_pairwise_cons hpair
        (List.mem_cons.2 (Or.inl rfl)))
        (hbound x (List.mem_cons.2 (Or.inl rfl)))
    · exact hbound b h1

theorem length_le_five_of_one_week {l : List StockDataPoint} {m : Nat}
    (hnd : (l.map (·.date)).Nodup)
    (hrange : ∀ b ∈ l, m ≤ b.date ∧ b.date ≤ m + 4) : l.length ≤ 5 := by
  have hsub : l.map (·.date) ⊆ List.range' m 5 := by
    intro x hx
    obtain ⟨b, hb, rfl⟩ := List.mem_map.1 hx
    rw [List.mem_range'_1]
    have := hrange b hb
    omega
  have h := (List.subperm_of_subset hnd hsub).length_le
  rw [List.length_map, List.length_range'] at h
  exact h

theorem le_foldl_max : ∀ (l : List ℚ) (a : ℚ), a ≤ l.foldl max a := by
  intro l
  induction l with
  | nil =>
    intro a
    exact le_refl a
  | cons x t ih =>
    intro a
    rw [List.foldl_cons]
    exact le_trans (le_max_left a x) (ih (max a x))

theorem foldl_min_pos :
    ∀ (l : List ℚ) (a : ℚ), 0 < a → (∀ x ∈ l, 0 < x) → 0 < l.foldl min a := by
  intro l
  induction l with
  | nil =>
    intro a ha _
    exact ha
  | cons x t ih =>
    intro a ha hall
    rw [List.foldl_cons]
    exact ih (min a x) (lt_min ha (hall x (by simp)))
      fun y hy => hall y (List.mem_cons.2 (Or.inr hy))

/-- Success and field characterization of `aggregate_week` on a group of
valid, distinct-date bars lying in one Monday–Friday week. -/
theorem aggregate_week_spec (l : List StockDataPoint) (ws we : Nat)
    (hne : l ≠ []) (hval : ∀ b ∈ l, b.Valid)
    (hnd : (l.map (·.date)).Nodup)
    (hkey : ∀ b ∈ l, weekKey b = (ws, we))
    (hwd : ∀ b ∈ l, b.date % 7 ≤ 4) :
    ∃ w, aggregate_week l ws we = some w ∧
      w.volume = (l.map (·.volume)).sum ∧
      w.trading_days = l.length ∧
      (∀ first ∈ l, (∀ b ∈ l, first.date ≤ b.date) → w.open_ = first.open_) ∧
      (∀ last ∈ l, (∀ b ∈ l, b.date ≤ last.date) → w.close = last.close) := by
  have hsp : (l.insertionSort dateKeyLe).Perm l := List.perm_insertionSort _ _
  have hple := insertionSort_date_pairwise l
  cases hs : l.insertionSort dateKeyLe with
  | nil =>
    rw [hs] at hsp
    exact absurd hsp.symm.eq_nil hne
  | cons first rest =>
    rw [hs] at hsp hple
    have hmem : ∀ b ∈ first :: rest, b ∈ l := fun b hb => hsp.mem_iff.1 hb
    have hmem' : ∀ b ∈ l, b ∈ first :: rest := fun b hb => hsp.mem_iff.2 hb
    have hfirstl : first ∈ l := hmem first (by simp)
    have hrange : ∀ b ∈ l, ws ≤ b.date ∧ b.date ≤ ws + 4 := by
      intro b hb
      have hk := hkey b hb
      have hw := hwd b hb
      unfold weekKey get_week_boundaries at hk
      rw [Prod.mk.injEq] at hk
      omega
    obtain ⟨hlastmem, hlastmax⟩ := getLastD_max rest first hple
    have hlastl : rest.getLastD first ∈ l := hmem _ hlastmem
    have hws0 : ws % 7 = 0 := by
      have hk := hkey first hfirstl
      unfold weekKey get_week_boundaries at hk
      rw [Prod.mk.injEq] at hk
      omega
    have hwe4 : we % 7 = 4 := by
      have hk := hkey first hfirstl
      unfold weekKey get_week_boundaries at hk
      rw [Prod.mk.injEq] at hk
      omega
    have hcond : 0 < first.open_ ∧
        0 < ((first :: rest).map (·.high)).foldl max first.high ∧
        0 < ((first :: rest).map (·.low)).foldl min first.low ∧
        0 < (rest.getLastD first).close ∧
        0 < (rest.getLastD first).adj_close ∧
        1 ≤ (first :: rest).length ∧ (first :: rest).length ≤ 5 ∧
        we % 7 = 4 ∧ ws % 7 = 0 := by
      refine ⟨(hval first hfirstl).1, ?_, ?_, (hval _ hlastl).2.2.2.1,
        (hval _ hlastl).2.2.2.2.1, by simp, ?_, hwe4, hws0⟩
      · exact lt_of_lt_of_le (hval first hfirstl).2.1
          (le_foldl_max _ first.high)
      · refine foldl_min_pos _ _ (hval first hfirstl).2.2.1 ?_
        intro x hx
        obtain ⟨b, hb, rfl⟩ := List.mem_map.1 hx
        exact (hval b (hmem b hb)).2.2.1
      · rw [hsp.length_eq]
        exact length_le_five_of_one_week hnd hrange
    refine ⟨⟨we, ws, first.open_,
      ((first :: rest).map (·.high)).foldl max first.high,
      ((first :: rest).map (·.low)).foldl min first.low,
      (rest.getLastD first).close, (rest.getLastD first).adj_close,
      ((first :: rest).map (·.volume)).sum, (first :: rest).length⟩,
      ?_, ?_, ?_, ?_, ?_⟩
    · unfold aggregate_week
      rw [hs]
      dsimp only
      unfold mkWeeklyDataPoint
      rw [if_pos hcond]
    · show ((first :: rest).map (·.volume)).sum = (l.map (·.volume)).sum
      exact (hsp.map (·.volume)).sum_eq
    · exact hsp.length_eq
    · intro first' hf' hmin
      show first.open_ = first'.open_
      have h1 : first'.date ≤ first.date := hmin first hfirstl
      have h2 : first.date ≤ first'.date := by
        rcases List.mem_cons.1 (hmem' first' hf') with h | h
        · rw [h]
        · exact List.rel_of_pairwise_cons hple h
      have : first' = first :=
        List.inj_on_of_nodup_map hnd hf' hfirstl (by omega)
      rw [this]
    · intro last' hl' hmax
      show (rest.getLastD first).close = last'.close
      have h1 : (rest.getLastD first).date ≤ last'.date := hmax _ hlastl
      have h2 : last'.date ≤ (rest.getLastD first).date :=
        hlastmax last' (hmem' last' hl')
      have : last' = rest.getLastD first :=
        List.inj_on_of_nodup_map hnd hl' hlastl (by omega)
      rw [this]

/-- When `aggregate_week` succeeds, the weekly volume is the sum of the
group's daily volumes. -/
theorem aggregate_week_volume {l : List StockDataPoint} {ws we : Nat}
    {w : WeeklyDataPoint} (h : aggregate_week l ws we = some w) :
    w.volume = (l.map (·.volume)).sum := by
  have hsp : (l.insertionSort dateKeyLe).Perm l := List.perm_insertionSort _ _
  unfold aggregate_week at h
  cases hs : l.insertionSort dateKeyLe with
  | nil =>
    rw [hs] at h
    exact absurd h (by simp)
  | cons first rest =>
    rw [hs] at h hsp
    dsimp only at h
    unfold mkWeeklyDataPoint at h
    split at h
    · injection h with h
      rw [← h]
      exact (hsp.map (·.volume)).sum_eq
    · exact absurd h (by simp)

theorem sum_filter_or_split (f : StockDataPoint → Nat)
    (p q : StockDataPoint → Bool) :
    ∀ l : List StockDataPoint, (∀ x ∈ l, ¬(p x = true ∧ q x = true)) →
      ((l.filter fun x => p x || q x).map f).sum =
        ((l.filter p).map f).sum + ((l.filter q).map f).sum := by
  intro l
  induction l with
  | nil =>
    intro _
    simp
  | cons a t ih =>
    intro hdisj
    have iht := ih fun x hx => hdisj x (List.mem_cons.2 (Or.inr hx))
    cases hp : p a with
    | true =>
      have hq : q a = false := by
        cases hqq : q a
        · rfl
        · exact absurd ⟨hp, hqq⟩ (hdisj a (List.mem_cons.2 (Or.inl rfl)))
      have hor : (fun x => p x || q x) a = true := by
        show (p a || q a) = true
        rw [hp]
        rfl
      rw [@List.filter_cons_of_pos _ (fun x => p x || q x) a t hor,
        List.filter_cons_of_pos hp,
        List.filter_cons_of_neg (by rw [hq]; exact Bool.false_ne_true)]
      simp only [List.map_cons, List.sum_cons, iht]
      omega
    | false =>
      cases hq : q a with
      | true =>
        have hor : (fun x => p x || q x) a = true := by
          show (p a || q a) = true
          rw [hp, hq]
          rfl
        rw [@List.filter_cons_of_pos _ (fun x => p x || q x) a t hor,
          List.filter_cons_of_neg (by rw [hp]; exact Bool.false_ne_true),
          List.filter_cons_of_pos hq]
        simp only [List.map_cons, List.sum_cons, iht]
        omega
      | false =>
        have hor : ¬((fun x => p x || q x) a = true) := by
          show ¬((p a || q a) = true)
          rw [hp, hq]
          exact Bool.false_ne_true
        rw [@List.filter_cons_of_neg _ (fun x => p x || q x) a t hor,
          List.filter_cons_of_neg (by rw [hp]; exact Bool.false_ne_true),
          List.filter_cons_of_neg (by rw [hq]; exact Bool.false_ne_true)]
        exact iht

theorem aggregateWeeks_volume :
    ∀ (keys : List (Nat × Nat)) (l : List StockDataPoint)
      (ws : List WeeklyDataPoint), keys.Nodup →
      aggregateWeeks l keys = some ws →
      (ws.map (·.volume)).sum =
        ((l.filter fun p => decide (weekKey p ∈ keys)).map (·.volume)).sum := by
  intro keys
  induction keys with
  | nil =>
    intro l ws _ h
    have hws : ws = [] := by
      injection h with h
      exact h.symm
    subst hws
    simp
  | cons k ks ih =>
    intro l ws hnd h
    simp only [List.nodup_cons] at hnd
    have hsplit : ((l.filter fun p =>
        decide (weekKey p ∈ k :: ks)).map (·.volume)).sum =
        ((l.filter fun p => decide (weekKey p = k)).map (·.volume)).sum +
        ((l.filter fun p => decide (weekKey p ∈ ks)).map (·.volume)).sum := by
      have hcg : (l.filter fun p => decide (weekKey p ∈ k :: ks)) =
          l.filter fun p =>
            decide (weekKey p = k) || decide (weekKey p ∈ ks) := by
        apply List.filter_congr
        intro x _
        simp [List.mem_cons]
      rw [hcg]
      apply sum_filter_or_split
      intro x _
      simp only [decide_eq_true_eq, not_and]
      intro hxk hxks
      exact hnd.1 (hxk ▸ hxks)
    unfold aggregateWeeks at h
    dsimp only at h
    by_cases hemp : (l.filter fun p => decide (weekKey p = k)).isEmpty
    · rw [if_pos hemp] at h
      have hnone : ∀ x ∈ l, ¬(weekKey x = k) := by
        intro x hx hxk
        have : x ∈ l.filter fun p => decide (weekKey p = k) :=
          List.mem_filter.2 ⟨hx, decide_eq_true hxk⟩
        rw [List.isEmpty_iff.1 hemp] at this
        simp at this
      have hzero : (l.filter fun p => decide (weekKey p = k)) = [] :=
        List.isEmpty_iff.1 hemp
      rw [hsplit, hzero]
      simp only [List.map_nil, List.sum_nil, Nat.zero_add]
      exact ih l ws hnd.2 h
    · rw [if_neg hemp] at h
      cases hw : aggregate_week
          (l.filter fun p => decide (weekKey p = k)) k.1 k.2 with
      | none =>
        rw [hw] at h
        cases hrest : aggregateWeeks l ks with
        | none =>
          rw [hrest] at h
          exact absurd h (by simp)
        | some rest =>
          rw [hrest] at h
          exact absurd h (by simp)
      | some w =>
        cases hrest : aggregateWeeks l ks with
        | none =>
          rw [hw, hrest] at h
          exact absurd h (by simp)
        | some rest =>
          rw [hw, hrest] at h
          have hws : w :: rest = ws := by
            injection h with h
          subst hws
          rw [List.map_cons, List.sum_cons, hsplit,
            aggregate_week_volume hw, ih l rest hnd.2 hrest]

theorem aggregateWeeks_isSome :
    ∀ (keys : List (Nat × Nat)) (l : List StockDataPoint),
      (∀ k ∈ keys, (l.filter fun p => decide (weekKey p = k)) ≠ [] →
        (aggregate_week (l.filter fun p => decide (weekKey p = k))
          k.1 k.2).isSome) →
      (aggregateWeeks l keys).isSome := by
  intro keys
  induction keys with
  | nil =>
    intro l _
    rfl
  | cons k ks ih =>
    intro l hk
    unfold aggregateWeeks
    dsimp only
    by_cases hemp : (l.filter fun p => decide (weekKey p = k)).isEmpty
    · rw [if_pos hemp]
      exact ih l fun k' hk' => hk k' (List.mem_cons.2 (Or.inr hk'))
    · rw [if_neg hemp]
      have h1 := hk k (List.mem_cons.2 (Or.inl rfl))
        fun hnil => hemp (by rw [hnil]; rfl)
      have h2 := ih l fun k' hk' => hk k' (List.mem_cons.2 (Or.inr hk'))
      cases hw : aggregate_week
          (l.filter fun p => decide (weekKey p = k)) k.1 k.2 with
      | none =>
        rw [hw] at h1
        exact absurd h1 (by simp)
      | some w =>
        cases hrest : aggregateWeeks l ks with
        | none =>
          rw [hrest] at h2
          exact absurd h2 (by simp)
        | some rest =>
          rfl

theorem insertionSort_eq_of_perm {l₁ l₂ : List StockDataPoint}
    (hp : l₁.Perm l₂) (hnd : (l₁.map (·.date)).Nodup) :
    l₁.insertionSort dateKeyLe = l₂.insertionSort dateKeyLe := by
  have h1 : (l₁.insertionSort dateKeyLe).Perm (l₂.insertionSort dateKeyLe) :=
    (List.perm_insertionSort _ _).trans
      (hp.trans (List.perm_insertionSort _ _).symm)
  have hnd1 : ((l₁.insertionSort dateKeyLe).map (·.date)).Nodup :=
    ((List.perm_insertionSort dateKeyLe l₁).map _).nodup_iff.2 hnd
  have hnd2 : ((l₂.insertionSort dateKeyLe).map (·.date)).Nodup :=
    (h1.map _).nodup_iff.1 hnd1
  exact eq_of_perm_of_pairwise_lt (·.date) h1
    (pairwise_lt_of_pairwise_le_nodup _ (insertionSort_date_pairwise l₁) hnd1)
    (pairwise_lt_of_pairwise_le_nodup _ (insertionSort_date_pairwise l₂) hnd2)

theorem aggregate_to_weekly_perm {l₁ l₂ : List StockDataPoint}
    (hp : l₁.Perm l₂) (hnd : (l₁.map (·.date)).Nodup) :
    aggregate_to_weekly l₁ = aggregate_to_weekly l₂ := by
  have hs := insertionSort_eq_of_perm hp hnd
  have he : l₁.isEmpty = l₂.isEmpty := by
    cases l₁ with
    | nil =>
      rw [hp.symm.eq_nil]
    | cons a t =>
      cases l₂ with
      | nil => exact absurd hp.eq_nil (by simp)
      | cons b s => rfl
  unfold aggregate_to_weekly
  rw [he, hs]

/-- C7: whenever `aggregate_to_weekly` succeeds, the sum of the weekly
volumes equals the sum of the daily volumes. -/
theorem weekly_volume_conserved (daily : List StockDataPoint)
    (ws : List WeeklyDataPoint) (h : aggregate_to_weekly daily = some ws) :
    (ws.map (·.volume)).sum = (daily.map (·.volume)).sum := by
  unfold aggregate_to_weekly at h
  by_cases hemp : daily.isEmpty
  · rw [if_pos hemp] at h
    have hws : ws = [] := by
      injection h with h
      exact h.symm
    rw [List.isEmpty_iff.1 hemp, hws]
    rfl
  · rw [if_neg hemp] at h
    dsimp only at h
    have hknd : (((daily.insertionSort dateKeyLe).map
        weekKey).dedup.insertionSort weekKeyLe).Nodup :=
      ((List.perm_insertionSort weekKeyLe _).nodup_iff).2 (List.nodup_dedup _)
    have hvol := aggregateWeeks_volume _ _ _ hknd h
    have hall : ∀ p ∈ daily.insertionSort dateKeyLe,
        (decide (weekKey p ∈ ((daily.insertionSort dateKeyLe).map
          weekKey).dedup.insertionSort weekKeyLe)) = true := by
      intro p hp
      apply decide_eq_true
      apply ((List.perm_insertionSort weekKeyLe _).mem_iff).2
      rw [List.mem_dedup]
      exact List.mem_map.2 ⟨p, hp, rfl⟩
    rw [List.filter_eq_self.2 hall] at hvol
    rw [hvol]
    exact ((List.perm_insertionSort dateKeyLe daily).map (·.volume)).sum_eq

/-- C6 counterexample: six valid daily bars with strictly increasing,
distinct dates — the sixth dated on a Saturday — make `aggregate_week`
construct `trading_days = 6`, which fails the `WeeklyDataPoint`
validator `trading_days ≤ 5` and raises (`none`). -/
theorem weekly_aggregator_raises_counterexample :
    (∀ b ∈ sixBars, b.Valid) ∧
      sixBars.Pairwise (fun a b => a.date < b.date) ∧
      aggregate_to_weekly sixBars = none := by
  refine ⟨by decide, by decide, by decide⟩

/-- C6 (amended): `aggregate_to_weekly` raises no exception on any list
of valid daily bars with distinct dates that are all dated on weekdays
(Monday–Friday); a weekend-dated bar can push `trading_days` past 5 and
raise, so the weekend case is excluded. -/
theorem weekly_aggregator_total_on_weekdays (daily : List StockDataPoint)
    (hval : ∀ b ∈ daily, b.Valid)
    (hnd : (daily.map (·.date)).Nodup)
    (hwd : ∀ b ∈ daily, b.date % 7 ≤ 4) :
    ∃ ws, aggregate_to_weekly daily = some ws := by
  unfold aggregate_to_weekly
  by_cases hemp : daily.isEmpty
  · rw [if_pos hemp]
    exact ⟨[], rfl⟩
  · rw [if_neg hemp]
    dsimp only
    have hspm := List.perm_insertionSort dateKeyLe daily
    have hspnd : ((daily.insertionSort dateKeyLe).map (·.date)).Nodup :=
      (hspm.map _).nodup_iff.2 hnd
    have hsome := aggregateWeeks_isSome
      (((daily.insertionSort dateKeyLe).map weekKey).dedup.insertionSort
        weekKeyLe)
      (daily.insertionSort dateKeyLe) ?_
    · cases hx : aggregateWeeks (daily.insertionSort dateKeyLe)
          (((daily.insertionSort dateKeyLe).map weekKey).dedup.insertionSort
            weekKeyLe) with
      | none =>
        rw [hx] at hsome
        exact absurd hsome (by simp)
      | some ws => exact ⟨ws, rfl⟩
    · intro k _ hgne
      have hgval : ∀ b ∈ (daily.insertionSort dateKeyLe).filter
          (fun p => decide (weekKey p = k)), b.Valid := by
        intro b hb
        exact hval b (hspm.mem_iff.1 (List.mem_filter.1 hb).1)
      have hgsub : (((daily.insertionSort dateKeyLe).filter
          (fun p => decide (weekKey p = k))).map (·.date)).Sublist
          ((daily.insertionSort dateKeyLe).map (·.date)) :=
        List.Sublist.map _ (List.filter_sublist _)
      have hgnd : (((daily.insertionSort dateKeyLe).filter
          (fun p => decide (weekKey p = k))).map (·.date)).Nodup :=
        List.Nodup.sublist hgsub hspnd
      have hgkey : ∀ b ∈ (daily.insertionSort dateKeyLe).filter
          (fun p => decide (weekKey p = k)), weekKey b = (k.1, k.2) := by
        intro b hb
        have hdec := List.of_mem_filter hb
        exact of_decide_eq_true hdec
      have hgwd : ∀ b ∈ (daily.insertionSort dateKeyLe).filter
          (fun p => decide (weekKey p = k)), b.date % 7 ≤ 4 := by
        intro b hb
        exact hwd b (hspm.mem_iff.1 (List.mem_filter.1 hb).1)
      obtain ⟨w, hw, -, -, -, -⟩ := aggregate_week_spec _ k.1 k.2 hgne
        hgval hgnd hgkey hgwd
      rw [hw]
      rfl

theorem weekly_aggregator_total_on_weekdays_witness :
    ((∀ b ∈ weekBars, b.Valid) ∧ (weekBars.map (·.date)).Nodup ∧
        (∀ b ∈ weekBars, b.date % 7 ≤ 4)) ∧
      ∃ ws, aggregate_to_weekly weekBars = some ws :=
  ⟨⟨by decide, by decide, by decide⟩,
    weekly_aggregator_total_on_weekdays weekBars (by decide) (by decide)
      (by decide)⟩

/-- C5: a non-empty series of valid daily bars with distinct dates inside
one Monday–Friday week aggregates to exactly one weekly bar whose open is
the chronologically-first bar's open and whose close is the
chronologically-last bar's close, and the output is the same for every
permutation of the input. -/
theorem weekly_single_week_roundtrip (daily : List StockDataPoint)
    (hne : daily ≠ []) (hval : ∀ b ∈ daily, b.Valid)
    (hnd : (daily.map (·.date)).Nodup)
    (hwk : ∀ a ∈ daily, ∀ b ∈ daily, weekKey a = weekKey b)
    (hwd : ∀ b ∈ daily, b.date % 7 ≤ 4) :
    ∃ w, aggregate_to_weekly daily = some [w] ∧
      (∀ first ∈ daily, (∀ b ∈ daily, first.date ≤ b.date) →
        w.open_ = first.open_) ∧
      (∀ last ∈ daily, (∀ b ∈ daily, b.date ≤ last.date) →
        w.close = last.close) ∧
      ∀ daily2, daily2.Perm daily →
        aggregate_to_weekly daily2 = aggregate_to_weekly daily := by
  obtain ⟨b₀, hb₀⟩ := List.exists_mem_of_ne_nil daily hne
  have hspm := List.perm_insertionSort dateKeyLe daily
  have hsval : ∀ b ∈ daily.insertionSort dateKeyLe, b.Valid :=
    fun b hb => hval b (hspm.mem_iff.1 hb)
  have hsnd : ((daily.insertionSort dateKeyLe).map (·.date)).Nodup :=
    (hspm.map _).nodup_iff.2 hnd
  have hskey : ∀ b ∈ daily.insertionSort dateKeyLe,
      weekKey b = ((weekKey b₀).1, (weekKey b₀).2) :=
    fun b hb => hwk b (hspm.mem_iff.1 hb) b₀ hb₀
  have hswd : ∀ b ∈ daily.insertionSort dateKeyLe, b.date % 7 ≤ 4 :=
    fun b hb => hwd b (hspm.mem_iff.1 hb)
  have hsne : daily.insertionSort dateKeyLe ≠ [] := by
    intro hnil
    rw [hnil] at hspm
    exact hne hspm.symm.eq_nil
  obtain ⟨w, hw, -, -, hopen, hclose⟩ :=
    aggregate_week_spec (daily.insertionSort dateKeyLe)
      (weekKey b₀).1 (weekKey b₀).2 hsne hsval hsnd hskey hswd
  have hfe : (daily.insertionSort dateKeyLe).filter
      (fun p => decide (weekKey p = weekKey b₀)) =
      daily.insertionSort dateKeyLe :=
    List.filter_eq_self.2 fun p hp => decide_eq_true (hskey p hp)
  have hdedup : ((daily.insertionSort dateKeyLe).map weekKey).dedup =
      [weekKey b₀] := by
    apply dedup_const
    · intro hnil
      rw [List.map_eq_nil_iff] at hnil
      exact hsne hnil
    · intro x hx
      obtain ⟨p, hp, rfl⟩ := List.mem_map.1 hx
      exact hskey p hp
  have haggr : aggregate_to_weekly daily = some [w] := by
    unfold aggregate_to_weekly
    rw [if_neg (by simp [List.isEmpty_iff, hne] : ¬(daily.isEmpty = true))]
    dsimp only
    rw [hdedup]
    show aggregateWeeks (daily.insertionSort dateKeyLe) [weekKey b₀] =
      some [w]
    unfold aggregateWeeks
    dsimp only
    rw [hfe, if_neg (by simp [List.isEmpty_iff, hsne] :
      ¬((daily.insertionSort dateKeyLe).isEmpty = true)), hw]
    rfl
  refine ⟨w, haggr, ?_, ?_, ?_⟩
  · intro first hf hmin
    exact hopen first (hspm.mem_iff.2 hf)
      fun b hb => hmin b (hspm.mem_iff.1 hb)
  · intro last hl hmax
    exact hclose last (hspm.mem_iff.2 hl)
      fun b hb => hmax b (hspm.mem_iff.1 hb)
  · intro daily2 hp2
    exact aggregate_to_weekly_perm hp2
      ((hp2.map (·.date)).nodup_iff.2 hnd)

/-! ## Indicator-calculator lemmas -/

theorem create_indicator_data_shape (name : String)
    (df : List StockDataPoint)
    (values_dict : List (String × List (Option ℚ))) :
    IndicatorShape df (create_indicator_data name df values_dict) := by
  refine ⟨?_, ?_, ?_⟩
  · show (df.enum.map _).length = df.length
    rw [List.length_map, List.enum_length]
  · unfold create_indicator_data
    dsimp only
    rw [List.map_map]
    show df.enum.map (fun ip => ip.2.date) = df.map (·.date)
    rw [show (fun ip : Nat × StockDataPoint => ip.2.date) =
      ((fun p : StockDataPoint => p.date) ∘ Prod.snd) from rfl]
    rw [← List.map_map, List.enum_map_snd]
  · intro iv _ e _
    cases hv : e.2 with
    | none => exact Or.inl rfl
    | some q => exact Or.inr ⟨q, rfl⟩

theorem calculate_indicator_shape
    {ta : String → String → List (Option ℚ)} {df : List StockDataPoint}
    {name : String} {d : IndicatorData}
    (h : calculate_indicator ta df name = some d) : IndicatorShape df d := by
  unfold calculate_indicator at h
  cases ho : indicatorOutputNames name with
  | none =>
    rw [ho] at h
    exact absurd h (by simp)
  | some outs =>
    rw [ho] at h
    have hd : create_indicator_data name df
        (outs.map fun o => (o, ta name o)) = d := by
      injection h
    rw [← hd]
    exact create_indicator_data_shape _ _ _

theorem foldl_calcStep_lookup_some (ta : String → String → List (Option ℚ))
    (df : List StockDataPoint) :
    ∀ (names : List String) (acc : List (String × IndicatorData))
      (name : String) (outs : List String),
      indicatorOutputNames name = some outs →
      minPeriod name ≤ df.length →
      (name ∈ names ∨
        ∃ d, alistLookup name acc = some d ∧ IndicatorShape df d) →
      ∃ d, alistLookup name (names.foldl (calcStep ta df) acc) = some d ∧
        IndicatorShape df d := by
  intro names
  induction names with
  | nil =>
    intro acc name outs _ _ hmem
    rcases hmem with h | h
    · simp at h
    · exact h
  | cons n rest ih =>
    intro acc name outs hout hlen hmem
    rw [List.foldl_cons]
    apply ih _ name outs hout hlen
    rcases hmem with hm | ⟨d, hd, hsh⟩
    · rcases List.mem_cons.1 hm with h1 | h1
      · subst h1
        right
        unfold calcStep
        rw [if_neg (by omega : ¬(df.length < minPeriod name))]
        unfold calculate_indicator
        rw [hout]
        simp only [Option.map_some']
        exact ⟨create_indicator_data name df
            (outs.map fun o => (o, ta name o)),
          alistLookup_insert_self _ _ _,
          create_indicator_data_shape _ _ _⟩
      · exact Or.inl h1
    · right
      unfold calcStep
      by_cases hlt : df.length < minPeriod n
      · rw [if_pos hlt]
        exact ⟨d, hd, hsh⟩
      · rw [if_neg hlt]
        cases hc : calculate_indicator ta df n with
        | none => exact ⟨d, hd, hsh⟩
        | some d' =>
          by_cases hnn : n = name
          · subst hnn
            exact ⟨d', alistLookup_insert_self _ _ _,
              calculate_indicator_shape hc⟩
          · refine ⟨d, ?_, hsh⟩
            rw [alistLookup_insert_ne _ fun he => hnn he.symm]
            exact hd

theorem foldl_calcStep_lookup_none (ta : String → String → List (Option ℚ))
    (df : List StockDataPoint) :
    ∀ (names : List String) (acc : List (String × IndicatorData))
      (name : String), df.length < minPeriod name →
      alistLookup name acc = none →
      alistLookup name (names.foldl (calcStep ta df) acc) = none := by
  intro names
  induction names with
  | nil =>
    intro acc name _ hacc
    exact hacc
  | cons n rest ih =>
    intro acc name hlen hacc
    rw [List.foldl_cons]
    apply ih _ name hlen
    unfold calcStep
    by_cases hlt : df.length < minPeriod n
    · rw [if_pos hlt]
      exact hacc
    · rw [if_neg hlt]
      cases hc : calculate_indicator ta df n with
      | none => exact hacc
      | some d' =>
        have hnn : name ≠ n := by
          intro he
          rw [he] at hlen
          exact hlt hlen
        rw [alistLookup_insert_ne _ hnn]
        exact hacc

/-- C8: for every catalog identifier requested against a non-empty
strictly-date-sorted series at least as long as its minimum history, the
computed `IndicatorData` is present in the result map and has exactly one
value entry per input bar, in the same date order, each entry null or a
float — for every `ta`-library oracle. -/
theorem indicator_series_shape (ta : String → String → List (Option ℚ))
    (points : List StockDataPoint) (names : List String) (name : String)
    (outs : List String)
    (hsorted : points.Pairwise fun a b => a.date < b.date)
    (hne : points ≠ [])
    (hcat : indicatorOutputNames name = some outs)
    (hreq : name ∈ names)
    (hlen : minPeriod name ≤ points.length) :
    ∃ d, alistLookup name (calculate_for_data ta points names) = some d ∧
      d.values.length = points.length ∧
      d.values.map (·.date) = points.map (·.date) ∧
      ∀ iv ∈ d.values, ∀ e ∈ iv.values, e.2 = none ∨ ∃ q, e.2 = some q := by
  have hdf : prepare_dataframe points = points :=
    insertionSort_date_eq_self hsorted
  unfold calculate_for_data
  dsimp only
  rw [hdf, if_neg (by simp [List.isEmpty_iff, hne] :
    ¬(points.isEmpty = true))]
  obtain ⟨d, hld, hsh⟩ := foldl_calcStep_lookup_some ta points names []
    name outs hcat hlen (Or.inl hreq)
  exact ⟨d, hld, hsh.1, hsh.2.1, hsh.2.2⟩

/-- C9: an identifier whose minimum-history requirement exceeds the series
length is absent from the result map (and no error is raised — the result
is total). -/
theorem insufficient_history_omitted
    (ta : String → String → List (Option ℚ))
    (points : List StockDataPoint) (names : List String) (name : String)
    (h : points.length < minPeriod name) :
    alistLookup name (calculate_for_data ta points names) = none := by
  unfold calculate_for_data
  dsimp only
  by_cases hemp : (prepare_dataframe points).isEmpty
  · rw [if_pos hemp]
    rfl
  · rw [if_neg hemp]
    have hplen : (prepare_dataframe points).length = points.length :=
      (List.perm_insertionSort dateKeyLe points).length_eq
    exact foldl_calcStep_lookup_none ta _ names [] name
      (by rw [hplen]; exact h) rfl

theorem merge_overwrite_policy_witness :
    ((exC3.map (·.date)).Nodup ∧ (incC2.map (·.date)).Nodup) ∧
      ((merge_price_data exC3 incC2).2.new_points =
          (incC2.filter (isNewFor exC3)).length ∧
        (merge_price_data exC3 incC2).2.duplicates =
          (incC2.filter (isDupFor exC3)).length ∧
        (merge_price_data exC3 incC2).2.warnings.filter
            MergeWarning.isUpdated =
          (incC2.filter (isOvwFor exC3)).map
            (fun b => MergeWarning.updated b.date) ∧
        ∀ b ∈ incC2,
          findByDate (merge_price_data exC3 incC2).1 b.date =
            some (mergeResolve (findByDate exC3 b.date) b)) :=
  ⟨⟨by decide, by decide⟩,
    merge_overwrite_policy exC3 incC2 (by decide) (by decide)⟩

theorem merge_idempotent_witness :
    (incC3.map (·.date)).Nodup ∧
      ((merge_price_data (merge_price_data exC3 incC3).1 incC3).1 =
          (merge_price_data exC3 incC3).1 ∧
        (merge_price_data (merge_price_data exC3 incC3).1
            incC3).2.new_points = 0 ∧
        (merge_price_data (merge_price_data exC3 incC3).1
            incC3).2.duplicates = incC3.length ∧
        (merge_price_data (merge_price_data exC3 incC3).1
            incC3).2.warnings.filter MergeWarning.isUpdated = []) :=
  ⟨by decide, merge_idempotent exC3 incC3 (by decide)⟩

theorem weekly_single_week_roundtrip_witness :
    (weekBars ≠ [] ∧ (∀ b ∈ weekBars, b.Valid) ∧
        (weekBars.map (·.date)).Nodup ∧
        (∀ a ∈ weekBars, ∀ b ∈ weekBars, weekKey a = weekKey b) ∧
        (∀ b ∈ weekBars, b.date % 7 ≤ 4)) ∧
      ∃ w, aggregate_to_weekly weekBars = some [w] ∧
        (∀ first ∈ weekBars, (∀ b ∈ weekBars, first.date ≤ b.date) →
          w.open_ = first.open_) ∧
        (∀ last ∈ weekBars, (∀ b ∈ weekBars, b.date ≤ last.date) →
          w.close = last.close) ∧
        ∀ daily2, daily2.Perm weekBars →
          aggregate_to_weekly daily2 = aggregate_to_weekly weekBars :=
  ⟨⟨by decide, by decide, by decide, by decide, by decide⟩,
    weekly_single_week_roundtrip weekBars (by decide) (by decide)
      (by decide) (by decide) (by decide)⟩

theorem weekly_volume_conserved_witness :
    aggregate_to_weekly weekBars = some wsC7 ∧
      (wsC7.map (·.volume)).sum = (weekBars.map (·.volume)).sum :=
  ⟨by decide, weekly_volume_conserved weekBars wsC7 (by decide)⟩

theorem indicator_series_shape_witness :
    (tenBars.Pairwise (fun a b => a.date < b.date) ∧ tenBars ≠ [] ∧
        indicatorOutputNames "OBV" = some ["OBV"] ∧
        "OBV" ∈ ["OBV", "SMA_50"] ∧ minPeriod "OBV" ≤ tenBars.length) ∧
      ∃ d, alistLookup "OBV"
          (calculate_for_data ta0 tenBars ["OBV", "SMA_50"]) = some d ∧
        d.values.length = tenBars.length ∧
        d.values.map (·.date) = tenBars.map (·.date) ∧
        ∀ iv ∈ d.values, ∀ e ∈ iv.values, e.2 = none ∨ ∃ q, e.2 = some q :=
  ⟨⟨by decide, by decide, by decide, by decide, by decide⟩,
    indicator_series_shape ta0 tenBars ["OBV", "SMA_50"] "OBV" ["OBV"]
      (by decide) (by decide) (by decide) (by decide) (by decide)⟩

theorem insufficient_history_omitted_witness :
    tenBars.length < minPeriod "SMA_50" ∧
      alistLookup "SMA_50" (calculate_for_data ta0 tenBars ["SMA_50"]) =
        none :=
  ⟨by decide, insufficient_history_omitted ta0 tenBars ["SMA_50"] "SMA_50"
    (by decide)⟩

end JnetSite
